import Mathlib

/-!
Verification of the `pasal` ingestion pipeline.

This file gives a shallow embedding, in Lean 4, of the pure computational
core of the pipeline (PDF-page joining, OCR correction, the structural
parser, the tree flattener, the chunk generator, the slug parser of the
discoverer, and an abstract model of the job-claim primitive), together
with theorems settling the specification claims about those components.

Python strings are modelled as Lean `String`/`List Char`; Python `int` as
`Nat`/`Int`; Python dicts of fixed shape as structures.  Regular-expression
substitutions from the source are implemented as explicit scanners over
`List Char` that reproduce the semantics of the concrete patterns used by
the source (anchoring, greediness, the MULTILINE flag, and the way
`re.sub` resumes scanning after the end of each match).
-/

namespace Pasal

/-! ## Python string primitives -/

/-- The set of characters stripped by Python `str.strip()` and matched by
the regex class `\s` (Unicode mode): ASCII whitespace, the separator
control characters, NBSP and the Unicode space characters. -/
def isPySpace (c : Char) : Bool :=
  let v := c.toNat
  v == 32 || v == 9 || v == 10 || v == 13 || v == 11 || v == 12 ||
  (decide (28 ≤ v) && decide (v ≤ 31)) || v == 0x85 || v == 0xa0 ||
  v == 0x1680 || (decide (0x2000 ≤ v) && decide (v ≤ 0x200a)) ||
  v == 0x2028 || v == 0x2029 || v == 0x202f || v == 0x205f || v == 0x3000

/-- Python `str.strip()` on a character list. -/
def pyStripL (l : List Char) : List Char :=
  ((l.dropWhile isPySpace).reverse.dropWhile isPySpace).reverse

/-- Python `str.strip()`. -/
def pyStrip (s : String) : String :=
  ⟨pyStripL s.data⟩

/-- Number of non-whitespace characters of a string (used to state the
spec's "non-whitespace characters" reading of the page-emptiness test). -/
def nonWsCount (s : String) : Nat :=
  (s.data.filter (fun c => !isPySpace c)).length

/-- Python `str.strip('-')` (used by `_parse_slug` on the number group). -/
def stripDashes (l : List Char) : List Char :=
  ((l.dropWhile (· == '-')).reverse.dropWhile (· == '-')).reverse

/-- ASCII lower-casing of one character, as Python `str.lower()` acts on
the ASCII range (the strings compared in the source are ASCII). -/
def asciiLower (c : Char) : Char :=
  if 'A' ≤ c ∧ c ≤ 'Z' then Char.ofNat (c.toNat + 32) else c

/-- ASCII lower-casing of a character list. -/
def lowerL (l : List Char) : List Char :=
  l.map asciiLower

/-- Case-insensitive equality of two character lists (ASCII case folding,
as used by the source's `re.IGNORECASE` patterns, whose literals are
ASCII). -/
def eqCI (a b : List Char) : Bool :=
  lowerL a == lowerL b

/-! ## `extract_pymupdf._dedup_page_breaks` (claim C7)

Source: `scripts/parser/extract_pymupdf.py`, lines 35-52. -/

/-- Whether the last `L` characters of `res` are a prefix of `page`
(`page.startswith(result[-length:])` in the source). -/
def isOverlap (res page : List Char) (L : Nat) : Bool :=
  (res.drop (res.length - L)).isPrefixOf page

/-- The scan `for length in range(max_check, 10, -1)` of
`_dedup_page_breaks`: starting from `k` and counting down to 11, the
first (hence largest) length whose suffix of `res` is a prefix of
`page`; `0` when the loop finds none. -/
def overlapScan (res page : List Char) : Nat → Nat
  | 0 => 0
  | k + 1 =>
    if k + 1 ≤ 10 then 0
    else if isOverlap res page (k + 1) then k + 1
    else overlapScan res page k

/-- One iteration of the page-joining loop of `_dedup_page_breaks`. -/
def dedupStep (res page : List Char) : List Char :=
  let maxCheck := min 200 (min res.length page.length)
  let overlap := overlapScan res page maxCheck
  if overlap > 0 then res ++ page.drop overlap
  else res ++ '\n' :: page

/-- `_dedup_page_breaks(pages)`: join pages while removing duplicated text
at page boundaries. -/
def dedupPageBreaks (pages : List String) : String :=
  match pages with
  | [] => ""
  | p :: rest => ⟨rest.foldl (fun acc q => dedupStep acc q.data) p.data⟩

/-! ## The page loop of `extract_text_pymupdf` (claim C6)

Source: `scripts/parser/extract_pymupdf.py`, lines 72-95.  A page is
modelled by its extracted text and its number of embedded images; the
loop body is translated verbatim. -/

/-- One page of the opened document: the result of `page.get_text("text")`
and of `page.get_images()`. -/
structure Page where
  text : String
  images : Nat
  deriving Repr

/-- The mutable extraction statistics (`page_count` and `char_count` are
filled outside the loop). -/
structure ExtractStats where
  pageCount : Nat
  charCount : Nat
  hasImages : Bool
  imagePages : Nat
  emptyPages : Nat
  deriving Repr, DecidableEq

/-- The page-inclusion test of the loop:
`if text and len(text.strip()) > 20`. -/
def pageKeep (t : String) : Bool :=
  t != "" && decide (20 < (pyStrip t).length)

/-- The body of the `for page_num in range(len(doc))` loop, acting on the
accumulated kept pages (in reverse) and statistics. -/
def pageStep (acc : List String × ExtractStats) (p : Page) :
    List String × ExtractStats :=
  let kept := acc.1
  let st := acc.2
  let kept := if pageKeep p.text then p.text :: kept else kept
  let st := if pageKeep p.text then st else { st with emptyPages := st.emptyPages + 1 }
  let st :=
    if p.images ≠ 0 then
      let st := { st with hasImages := true }
      if p.text = "" ∨ (pyStrip p.text).length < 20 then
        { st with imagePages := st.imagePages + 1 }
      else st
    else st
  (kept, st)

/-- The list of page texts appended by the loop (`pages` in the source),
together with the statistics after the loop. -/
def extractPages (ps : List Page) : List String × ExtractStats :=
  let init : List String × ExtractStats :=
    ([], ⟨ps.length, 0, false, 0, 0⟩)
  let r := ps.foldl pageStep init
  (r.1.reverse, r.2)

/-- The text assembled from the kept pages, before header/footer
stripping (`raw = _dedup_page_breaks(pages)`). -/
def extractJoin (ps : List Page) : String :=
  dedupPageBreaks (extractPages ps).1

/-! ## Parsed document nodes and `_flatten_tree` (claim C2)

Source: `scripts/loader/load_to_supabase.py`, lines 176-205.  A parsed
node is a dict `{type, number, heading, content, children, sort_order}`;
node kinds that omit a key (`heading` on pasal nodes, `children` /
`sort_order` on ayat nodes) are read back through `.get(..., default)`
by every consumer, so they are modelled by the default (`""` resp. `[]`;
the parser-assigned `sort_order` is ignored by the flattener, which
assigns its own). -/

structure Node where
  ntype : String
  number : String
  heading : String
  content : String
  children : List Node
  sortOrder : Nat
  deriving Repr

/-- One entry of the flat list built by `_flatten_tree`:
`{node, depth, parent_idx, path, sort_order}`. -/
structure FlatEntry where
  node : Node
  depth : Nat
  parentIdx : Option Nat
  path : String
  sortOrder : Nat
  deriving Repr

/-- `f"{node_type}_{number}".replace(".", "_").replace(" ", "_")`. -/
def pathSegment (t n : String) : String :=
  ⟨(t.data ++ '_' :: n.data).map (fun c => if c = '.' ∨ c = ' ' then '_' else c)⟩

/-- `path = f"{path_prefix}.{path_segment}" if path_prefix else path_segment`. -/
def joinPath (pre seg : String) : String :=
  if pre = "" then seg else pre ++ "." ++ seg

/-- The inner `_walk` of `_flatten_tree`: DFS over the children list,
incrementing one shared counter per node and appending one entry per
node to the shared result list. -/
def flattenWalk (ns : List Node) (pidx : Option Nat) (pre : String) (depth : Nat)
    (acc : List FlatEntry × Nat) : List FlatEntry × Nat :=
  match ns with
  | [] => acc
  | n :: rest =>
    flattenWalk rest pidx pre depth
      (if n.children.isEmpty then
        (acc.1 ++ [⟨n, depth, pidx, joinPath pre (pathSegment n.ntype n.number), acc.2 + 1⟩],
         acc.2 + 1)
      else
        flattenWalk n.children (some acc.1.length)
          (joinPath pre (pathSegment n.ntype n.number)) (depth + 1)
          (acc.1 ++ [⟨n, depth, pidx, joinPath pre (pathSegment n.ntype n.number), acc.2 + 1⟩],
           acc.2 + 1))
  termination_by sizeOf ns
  decreasing_by
  · obtain ⟨t, num, hd, ct, ch, so⟩ := n
    simp
    omega
  · simp

/-- `_flatten_tree(nodes)`. -/
def flattenTree (nodes : List Node) : List FlatEntry :=
  (flattenWalk nodes none "" 0 ([], 0)).1

/-- The flat list produced by `_walk`, written as a pure recursion on the
tree: `k` is both the number of entries already emitted and the current
counter value (the two always coincide in `_flatten_tree`, whose counter
starts at `0` with an empty result list).  Related to `flattenWalk` by
`flattenWalk_eq_flatSpec`. -/
def flatSpec (ns : List Node) (pidx : Option Nat) (pre : String) (depth : Nat)
    (k : Nat) : List FlatEntry :=
  match ns with
  | [] => []
  | n :: rest =>
    FlatEntry.mk n depth pidx (joinPath pre (pathSegment n.ntype n.number)) (k + 1) ::
      (flatSpec n.children (some k) (joinPath pre (pathSegment n.ntype n.number))
          (depth + 1) (k + 1)
        ++ flatSpec rest pidx pre depth
            (k + 1 + (flatSpec n.children (some k)
                (joinPath pre (pathSegment n.ntype n.number)) (depth + 1) (k + 1)).length))
  termination_by sizeOf ns
  decreasing_by
  · obtain ⟨t, num, hd, ct, ch, so⟩ := n
    simp
    omega
  · simp

/-! ## The job queue and the atomic claim primitive (claim C1)

`scripts/crawler/state.py` (`claim_pending_jobs`, lines 35-47) calls the
database function `claim_jobs(p_limit)` through RPC; that SQL function is
not part of the repository tree, only its caller and documentation are.
Per the caller's documentation and the spec it atomically selects up to
`limit` rows whose status is `pending`, sets their status to `crawling`
and returns them, all in one query (`FOR UPDATE SKIP LOCKED`), so a
concurrent execution of several calls is equivalent to some sequential
interleaving of atomic calls, which is what is modelled here. -/

/-- A row of `crawl_jobs`, reduced to the columns the claim protocol
touches. -/
structure QJob where
  id : Nat
  status : String
  deriving Repr, DecidableEq

/-- Modelled from the spec: the database function `claim_jobs(p_limit)`
(missing from the tree; called by `claim_pending_jobs`) — atomically
claim up to `limit` pending rows: the claimed rows (status already set
to `crawling`) and the updated table. -/
def claimJobs : Nat → List QJob → List QJob × List QJob
  | _, [] => ([], [])
  | 0, j :: rest => ([], j :: rest)
  | limit + 1, j :: rest =>
    if j.status = "pending" then
      let r := claimJobs limit rest
      (⟨j.id, "crawling"⟩ :: r.1, ⟨j.id, "crawling"⟩ :: r.2)
    else
      let r := claimJobs (limit + 1) rest
      (r.1, j :: r.2)

/-- A sequence of atomic `claim_jobs` calls (one per requested limit):
the list of returned batches and the final table. -/
def runClaims : List Nat → List QJob → List (List QJob) × List QJob
  | [], s => ([], s)
  | l :: ls, s =>
    let r := claimJobs l s
    let rr := runClaims ls r.2
    (r.1 :: rr.1, rr.2)

/-- The status of the row with a given id (`None` when absent). -/
def statusOf (s : List QJob) (id : Nat) : Option String :=
  (s.find? (fun j => j.id == id)).map QJob.status

/-! ## `create_chunks` (claim C10)

Source: `scripts/loader/load_to_supabase.py`, lines 302-398.  A pasal
record is one element of the `pasal_nodes` list built by the loaders
(all keys always present); the law dict is reduced to the fields the
function reads, with an absent `full_text` modelled by `""` (both are
falsy). -/

/-- ASCII lower-casing of a string. -/
def lowerS (s : String) : String :=
  ⟨lowerL s.data⟩

/-- One element of `pasal_nodes`. -/
structure PasalRec where
  nodeId : Nat
  number : String
  content : String
  heading : String
  parentHeading : String
  nodeType : String
  deriving Repr, DecidableEq

/-- The law dict fields read by `create_chunks`. -/
structure Law where
  frbrUri : String
  ltype : String
  number : String
  year : Int
  titleId : String
  fullText : String
  deriving Repr, DecidableEq

/-- The metadata map attached to a chunk (one variant per branch of
`create_chunks`). -/
inductive ChunkMeta where
  | penj (t n : String) (y : Int) (p : String)
  | sect (t n : String) (y : Int) (s : String)
  | pasalMeta (t n : String) (y : Int) (p : String)
  | fullTextMeta (t n : String) (y : Int) (idx : Nat)
  deriving Repr, DecidableEq

/-- One row for `legal_chunks` (`node_id` is absent on full-text fallback
chunks). -/
structure Chunk where
  workId : Nat
  nodeId : Option Nat
  content : String
  metadata : ChunkMeta
  deriving Repr, DecidableEq

/-- `content.strip().lower().startswith("cukup jelas")`. -/
def cukupJelas (content : String) : Bool :=
  "cukup jelas".data.isPrefixOf (lowerL (pyStripL content.data))

/-- The body of the `for pasal in pasal_nodes` loop of `create_chunks`:
the chunk appended for this record, or `none` when the loop `continue`s. -/
def emitChunk (workId : Nat) (law : Law) (p : PasalRec) : Option Chunk :=
  if p.content = "" ∨ (pyStrip p.content).length < 10 then none
  else if p.nodeType = "penjelasan_umum" ∨ p.nodeType = "penjelasan_pasal" then
    if cukupJelas p.content then none
    else if p.number ≠ "" then
      some ⟨workId, some p.nodeId,
        law.titleId ++ "\nPenjelasan Pasal " ++ p.number ++ "\n\n" ++ p.content,
        ChunkMeta.penj law.ltype law.number law.year p.number⟩
    else
      some ⟨workId, some p.nodeId,
        law.titleId ++ "\nPenjelasan Umum\n\n" ++ p.content,
        ChunkMeta.penj law.ltype law.number law.year p.number⟩
  else if p.nodeType = "preamble" ∨ p.nodeType = "content" ∨ p.nodeType = "aturan" then
    if p.heading ≠ "" then
      some ⟨workId, some p.nodeId,
        law.titleId ++ "\n" ++ p.heading ++ "\n\n" ++ p.content,
        ChunkMeta.sect law.ltype law.number law.year p.nodeType⟩
    else
      some ⟨workId, some p.nodeId,
        law.titleId ++ "\n\n" ++ p.content,
        ChunkMeta.sect law.ltype law.number law.year p.nodeType⟩
  else
    some ⟨workId, some p.nodeId,
      law.titleId ++ "\nPasal " ++ p.number ++ "\n\n" ++ p.content,
      ChunkMeta.pasalMeta law.ltype law.number law.year p.number⟩

/-- Python `str.split()` helper: whitespace-separated words, empties
dropped. -/
def wordsAux : List Char → List Char → List (List Char)
  | [], cur => if cur.isEmpty then [] else [cur.reverse]
  | c :: cs, cur =>
    if isPySpace c then
      if cur.isEmpty then wordsAux cs [] else cur.reverse :: wordsAux cs []
    else wordsAux cs (c :: cur)

/-- Python `str.split()`. -/
def pySplit (s : String) : List String :=
  (wordsAux s.data []).map (fun l => ⟨l⟩)

/-- `for i in range(0, len(words), chunk_size)` with `words[i:i+300]`. -/
def groupWords : Nat → List String → List (Nat × List String)
  | _, [] => []
  | i, w :: ws => (i, (w :: ws).take 300) :: groupWords (i + 300) ((w :: ws).drop 300)
  termination_by _ ws => ws.length
  decreasing_by
  simp
  omega

/-- The full-text fallback chunks built when no pasal-level chunk was
produced. -/
def fallbackChunks (workId : Nat) (law : Law) : List Chunk :=
  if law.fullText ≠ "" then
    (groupWords 0 (pySplit law.fullText)).map (fun g =>
      ⟨workId, none,
        law.titleId ++ "\n\n" ++ String.intercalate " " g.2,
        ChunkMeta.fullTextMeta law.ltype law.number law.year (g.1 / 300)⟩)
  else []

/-- `create_chunks(sb, work_id, law, pasal_nodes)`, as the list of chunk
rows it inserts. -/
def createChunks (workId : Nat) (law : Law) (pasalNodes : List PasalRec) : List Chunk :=
  let cs := pasalNodes.filterMap (emitChunk workId law)
  if cs.isEmpty then cs ++ fallbackChunks workId law else cs

/-! ## The discoverer's slug parsing and page extraction (claim C9)

Source: `scripts/worker/discover.py`.  The listing page is modelled as
the list of its anchors: `href`, the stripped anchor text
(`link.get_text(strip=True)`) and the href of the first pdf link of the
anchor's parent element, when present. -/

/-- An `<a href=...>` element of the listing page. -/
structure Anchor where
  href : String
  text : String
  parentPdfHref : Option String
  deriving Repr, DecidableEq

/-- `href.replace("/id/", "")`: remove every occurrence, left to right. -/
def replaceIdAll : List Char → List Char
  | '/' :: 'i' :: 'd' :: '/' :: rest => replaceIdAll rest
  | c :: cs => c :: replaceIdAll cs
  | [] => []

/-- Python `str.strip('/')`. -/
def stripSlashes (l : List Char) : List Char :=
  ((l.dropWhile (· == '/')).reverse.dropWhile (· == '/')).reverse

/-- The lazy `(.+?)` of `SLUG_RE`: the shortest non-empty prefix followed
by a case-insensitive `-no-` with a non-empty remainder; returns
(prefix, remainder after `-no-`). -/
def slugNoSplit (pre : List Char) : List Char → Option (List Char × List Char)
  | [] => none
  | c :: rest =>
    if eqCI (rest.take 4) "-no-".data && decide (4 < rest.length) then
      some (pre ++ [c], rest.drop 4)
    else slugNoSplit (pre ++ [c]) rest

/-- Decimal value of a digit string (`int(m.group(3))`). -/
def digitsToNat (l : List Char) : Nat :=
  l.foldl (fun a c => a * 10 + (c.toNat - 48)) 0

/-- `SLUG_RE.match(slug)` for
`^(.+?)-no-(.+)-tahun-(\d{4})$` (IGNORECASE): the match exists exactly
when the slug ends with `-tahun-` followed by four digits and the head
splits at the first `-no-`; returns the three groups. -/
def matchSlug (slug : String) : Option (List Char × List Char × List Char) :=
  let l := slug.data
  let year := l.drop (l.length - 4)
  let tahun := (l.drop (l.length - 11)).take 7
  let head := l.take (l.length - 11)
  if decide (11 ≤ l.length) && year.all Char.isDigit && eqCI tahun "-tahun-".data then
    match slugNoSplit [] head with
    | some (pre, num) => some (pre, num, year)
    | none => none
  else none

/-- Python `needle in hay` on strings (substring containment). -/
def containsL : List Char → List Char → Bool
  | [], needle => needle.isEmpty
  | c :: t, needle => needle.isPrefixOf (c :: t) || containsL t needle

/-- `_infer_type_from_prefix(prefix)`. -/
def inferTypeFromPrefix (pre : String) : String :=
  let p := lowerS pre
  if p = "uu" then "UU"
  else if p = "pp" then "PP"
  else if p = "perpres" then "PERPRES"
  else if p = "perppu" then "PERPPU"
  else if p = "keppres" then "KEPPRES"
  else if p = "inpres" then "INPRES"
  else if p = "penpres" then "PENPRES"
  else if p = "uudrt" then "UUDRT"
  else if "tap".data.isPrefixOf p.data && containsL p.data "mpr".data then "TAP_MPR"
  else if "permen".data.isPrefixOf p.data || "kepmen".data.isPrefixOf p.data then "PERMEN"
  else if "perda".data.isPrefixOf p.data || "perwako".data.isPrefixOf p.data
      || "perwalkot".data.isPrefixOf p.data || "perbup".data.isPrefixOf p.data
      || "pergub".data.isPrefixOf p.data || "perwal".data.isPrefixOf p.data
      || "qanun".data.isPrefixOf p.data then "PERDA"
  else if "peraturan-".data.isPrefixOf p.data || "perpusnas".data.isPrefixOf p.data
      || "perka".data.isPrefixOf p.data || "perdirjen".data.isPrefixOf p.data
      || "perbpk".data.isPrefixOf p.data || "perbi".data.isPrefixOf p.data
      || "pojk".data.isPrefixOf p.data then "PERBAN"
  else "PERMEN"

/-- The dict returned by `_parse_slug`. -/
structure ParsedSlug where
  ptype : String
  slugPre : String
  number : String
  year : Nat
  deriving Repr, DecidableEq

/-- `_parse_slug(slug, page_type_code)`. -/
def parseSlug (slug : String) (pageTypeCode : Option String) : Option ParsedSlug :=
  match matchSlug slug with
  | none => none
  | some (pre, num, year) =>
    let typeCode := match pageTypeCode with
      | some c => c
      | none => inferTypeFromPrefix ⟨pre⟩
    some ⟨typeCode, ⟨pre⟩, ⟨stripDashes num⟩, digitsToNat year⟩

/-- `TYPE_NAMES.get(code, code)`. -/
def typeName (c : String) : String :=
  if c = "UU" then "Undang-Undang"
  else if c = "PP" then "Peraturan Pemerintah"
  else if c = "PERPRES" then "Peraturan Presiden"
  else if c = "PERPPU" then "Peraturan Pemerintah Pengganti Undang-Undang"
  else if c = "KEPPRES" then "Keputusan Presiden"
  else if c = "INPRES" then "Instruksi Presiden"
  else if c = "PENPRES" then "Penetapan Presiden"
  else if c = "UUDRT" then "Undang-Undang Darurat"
  else if c = "TAP_MPR" then "Ketetapan Majelis Permusyawaratan Rakyat"
  else if c = "PERMEN" then "Peraturan Menteri"
  else if c = "PERBAN" then "Peraturan Badan"
  else if c = "PERDA" then "Peraturan Daerah"
  else c

/-- A row upserted into `crawl_jobs` by the discoverer. -/
structure JobRec where
  sourceId : String
  url : String
  pdfUrl : Option String
  regulationType : String
  number : String
  year : Nat
  title : String
  status : String
  frbrUri : String
  deriving Repr, DecidableEq

/-- The body of the anchor loop of `_extract_regulations_from_page`:
the record appended for this link, or `none` when the loop `continue`s. -/
def extractRegsStep (typeCode : String) (a : Anchor) : Option JobRec :=
  if ¬ "/id/".data.isPrefixOf a.href.data then none
  else
    let slug : String := ⟨stripSlashes (replaceIdAll a.href.data)⟩
    match parseSlug slug (some typeCode) with
    | none => none
    | some parsed =>
      if a.text = "" ∨ a.text.length < 3 then none
      else
        let formalTitle := typeName parsed.ptype ++ " Nomor " ++ parsed.number
          ++ " Tahun " ++ toString parsed.year ++ " tentang " ++ a.text
        let pdfUrl := match a.parentPdfHref with
          | some h =>
            some (if "http".data.isPrefixOf h.data then h else "https://peraturan.go.id" ++ h)
          | none => none
        some { sourceId := "peraturan_go_id",
               url := "https://peraturan.go.id" ++ a.href,
               pdfUrl := pdfUrl,
               regulationType := parsed.ptype,
               number := parsed.number,
               year := parsed.year,
               title := formalTitle,
               status := "pending",
               frbrUri := "/akn/id/act/" ++ lowerS parsed.slugPre ++ "/"
                 ++ toString parsed.year ++ "/" ++ parsed.number }

/-- The final per-page deduplication by URL (first occurrence wins). -/
def dedupByUrl (seen : List String) : List JobRec → List JobRec
  | [] => []
  | r :: rs =>
    if r.url ∈ seen then dedupByUrl seen rs
    else r :: dedupByUrl (r.url :: seen) rs

/-- `_extract_regulations_from_page(soup, reg_type, type_code)` (the
`reg_type` key is unused by the source body). -/
def extractRegulationsFromPage (anchors : List Anchor) (typeCode : String) : List JobRec :=
  dedupByUrl [] (anchors.filterMap (extractRegsStep typeCode))

/-! ## Regex scanner machinery

Generic scanners implementing `re.sub` for the concrete pattern shapes
used by the source.  They are written with an explicit fuel argument
(consumed one unit per scan position) so that they are structurally
recursive and evaluate inside the kernel; each wrapper passes the input
length as fuel, which is enough because every step consumes at least one
character. -/

/-- Python regex `\w` on the ASCII range. -/
def isWordChar (c : Char) : Bool :=
  c.isAlphanum || c == '_'

/-- The separator class `[ \t]` of the Pasal patterns. -/
def isSepTab (c : Char) : Bool :=
  c == ' ' || c == '\t'

/-- For a trailing `\s*$` (MULTILINE): given the text after the matched
body, the greedy number of whitespace characters consumed by `\s*` such
that the position after them is the end of the string or immediately
before a newline; `none` when `$` cannot be satisfied. -/
def lastNewlineIdx (ws : List Char) : Option Nat :=
  match ws.reverse.findIdx? (· == '\n') with
  | some r => some (ws.length - 1 - r)
  | none => none

def tailWsEnd (rest : List Char) : Option Nat :=
  let ws := rest.takeWhile isPySpace
  if rest.length == ws.length then some ws.length
  else lastNewlineIdx ws

def dropPre (pat l : List Char) : Option (List Char) :=
  if pat.isPrefixOf l then some (l.drop pat.length) else none

/-- Matcher for MULTILINE patterns of shape
`^<kw><sep>+<body>\s*$`: returns the total matched length (including the
trailing whitespace consumed by `\s*$`) and the body group. -/
def tryLineMarker (kw : List Char) (sep : Char → Bool)
    (body : List Char → Option (List Char × List Char)) (l : List Char) :
    Option (Nat × List Char) :=
  match dropPre kw l with
  | none => none
  | some r1 =>
    let sp := r1.takeWhile sep
    if sp.isEmpty then none
    else
      match body (r1.drop sp.length) with
      | none => none
      | some (g, r2) =>
        match tailWsEnd r2 with
        | none => none
        | some k => some (kw.length + sp.length + g.length + k, g)

/-- `re.sub` for a MULTILINE line-anchored pattern: `tryM` is attempted
only at line starts; on a match of `n` characters with group `g`, the
output of `emit` (given the matched text and the group) replaces the
match and scanning resumes after it. -/
def lineSubRun (tryM : List Char → Option (Nat × List Char))
    (emit : List Char → List Char → List Char) :
    Nat → Bool → List Char → List Char
  | 0, _, l => l
  | _ + 1, _, [] => []
  | fuel + 1, atStart, c :: cs =>
    match (if atStart then tryM (c :: cs) else none) with
    | some (n, g) =>
      match n with
      | 0 => c :: lineSubRun tryM emit fuel (c == '\n') cs
      | n + 1 =>
        emit ((c :: cs).take (n + 1)) g
          ++ lineSubRun tryM emit fuel
              (((c :: cs).take (n + 1)).getLast? == some '\n') (cs.drop n)
    | none => c :: lineSubRun tryM emit fuel (c == '\n') cs

def runLineSub (tryM : List Char → Option (Nat × List Char))
    (emit : List Char → List Char → List Char) (l : List Char) : List Char :=
  lineSubRun tryM emit l.length true l

/-- `re.sub` for an unanchored pattern with a fixed-width lookbehind:
`step` receives the (reversed) text before the current position and the
text from it, and returns the consumed length and the replacement. -/
def scanSub (step : List Char → List Char → Option (Nat × List Char)) :
    Nat → List Char → List Char → List Char
  | 0, _, l => l
  | _ + 1, _, [] => []
  | fuel + 1, revPre, c :: cs =>
    match step revPre (c :: cs) with
    | some (n, repl) =>
      match n with
      | 0 => c :: scanSub step fuel (c :: revPre) cs
      | n + 1 =>
        repl ++ scanSub step fuel (((c :: cs).take (n + 1)).reverse ++ revPre) (cs.drop n)
    | none => c :: scanSub step fuel (c :: revPre) cs

def runScanSub (step : List Char → List Char → Option (Nat × List Char))
    (l : List Char) : List Char :=
  scanSub step l.length [] l

/-! ## `correct_ocr_errors` (claim C8)

Source: `scripts/parser/ocr_correct.py`.  The `_OCR_PATTERNS` list is
applied in order, followed by the blank-line collapse. -/

/-- Body `l` of `^(Pasal)[ \t]+l\s*$` (exactly one lowercase letter l). -/
def bodyLowerL : List Char → Option (List Char × List Char)
  | 'l' :: r => some (['l'], r)
  | _ => none

/-- The fixed-width lookbehind `(?<=Pasal\s)`. -/
def isRevLookbehindPasal (revPre : List Char) : Bool :=
  match revPre with
  | c :: r => isPySpace c && "lasaP".data.isPrefixOf r
  | [] => false

/-- `(?<=Pasal\s)[lI](\d+)` → `1\1`. -/
def stepP2 (revPre l : List Char) : Option (Nat × List Char) :=
  if isRevLookbehindPasal revPre then
    match l with
    | c :: rest =>
      if c == 'l' || c == 'I' then
        let d := rest.takeWhile Char.isDigit
        if d.isEmpty then none else some (1 + d.length, '1' :: d)
      else none
    | [] => none
  else none

/-- `(\d)O(?=\s|$|\n)` → `\1` + `0` (no MULTILINE flag: `$` is the end of
the string or before a final newline, both subsumed by `\s` except the
very end). -/
def stepP3 (_revPre l : List Char) : Option (Nat × List Char) :=
  match l with
  | d :: 'O' :: rest =>
    if d.isDigit && (match rest with | [] => true | r :: _ => isPySpace r) then
      some (2, [d, '0'])
    else none
  | _ => none

/-- `(?<=Pasal\s)(\d+)O\b` → `\1` + `0`. -/
def stepP4 (revPre l : List Char) : Option (Nat × List Char) :=
  if isRevLookbehindPasal revPre then
    let d := l.takeWhile Char.isDigit
    if d.isEmpty then none
    else
      match l.drop d.length with
      | 'O' :: rest =>
        if (match rest with | [] => true | r :: _ => !isWordChar r) then
          some (d.length + 1, d ++ ['0'])
        else none
      | _ => none
  else none

/-- `(?<=\s)l(?=\d{2,})` → `1`. -/
def stepP5 (revPre l : List Char) : Option (Nat × List Char) :=
  match revPre with
  | p :: _ =>
    if isPySpace p then
      match l with
      | 'l' :: d1 :: d2 :: _ =>
        if d1.isDigit && d2.isDigit then some (1, ['1']) else none
      | _ => none
    else none
  | [] => none

/-- `(?<=\d)l(?=\d)` → `1`. -/
def stepP6 (revPre l : List Char) : Option (Nat × List Char) :=
  match revPre with
  | p :: _ =>
    if p.isDigit then
      match l with
      | 'l' :: d :: _ => if d.isDigit then some (1, ['1']) else none
      | _ => none
    else none
  | [] => none

def boundaryBefore (revPre : List Char) : Bool :=
  match revPre with
  | [] => true
  | c :: _ => !isWordChar c

def boundaryAfter (l : List Char) : Bool :=
  match l with
  | [] => true
  | c :: _ => !isWordChar c

/-- `\b<word>\b` (IGNORECASE) → a fixed replacement. -/
def stepWordCI (pat repl : List Char) (revPre l : List Char) : Option (Nat × List Char) :=
  if boundaryBefore revPre && eqCI (l.take pat.length) pat
      && decide (pat.length ≤ l.length) && boundaryAfter (l.drop pat.length) then
    some (pat.length, repl)
  else none

/-- Positional character-class match (for words with a `[!I1]` class). -/
def matchClasses : List (Char → Bool) → List Char → Bool
  | [], _ => true
  | _ :: _, [] => false
  | p :: ps, c :: cs => p c && matchClasses ps cs

def stepWordClasses (pats : List (Char → Bool)) (repl : List Char)
    (revPre l : List Char) : Option (Nat × List Char) :=
  if boundaryBefore revPre && matchClasses pats (l.take pats.length)
      && decide (pats.length ≤ l.length) && boundaryAfter (l.drop pats.length) then
    some (pats.length, repl)
  else none

/-- One case-insensitive literal letter (given in lowercase). -/
def ciOf (x : Char) : Char → Bool :=
  fun c => asciiLower c == x

/-- The class `[!I1]` under IGNORECASE. -/
def bangI1 : Char → Bool :=
  fun c => c == '!' || c == '1' || asciiLower c == 'i'

def presidenPats : List (Char → Bool) :=
  [ciOf 'p', ciOf 'r', ciOf 'e', ciOf 's', bangI1, ciOf 'd', ciOf 'e', ciOf 'n']

def republikPats : List (Char → Bool) :=
  [ciOf 'r', ciOf 'e', ciOf 'p', ciOf 'u', ciOf 'b', bangI1, ciOf 'i', ciOf 'k']

def indonesiaPats : List (Char → Bool) :=
  [ciOf 'i', ciOf 'n', ciOf 'd', ciOf 'o', ciOf 'n', ciOf 'e', ciOf 's', bangI1, ciOf 'a']

/-- `\bUNDANG[\s-]*UNDANG\b` (IGNORECASE) → `UNDANG-UNDANG`. -/
def stepUndang (revPre l : List Char) : Option (Nat × List Char) :=
  if boundaryBefore revPre && eqCI (l.take 6) "UNDANG".data && decide (6 ≤ l.length) then
    let r1 := l.drop 6
    let mid := r1.takeWhile (fun c => isPySpace c || c == '-')
    let r2 := r1.drop mid.length
    if eqCI (r2.take 6) "UNDANG".data && decide (6 ≤ r2.length)
        && boundaryAfter (r2.drop 6) then
      some (6 + mid.length + 6, "UNDANG-UNDANG".data)
    else none
  else none

/-- `\bPERATURAN\s+PEMER[!I1]NTAH\b` (IGNORECASE) → `PERATURAN PEMERINTAH`. -/
def stepPeraturan (revPre l : List Char) : Option (Nat × List Char) :=
  if boundaryBefore revPre && eqCI (l.take 9) "PERATURAN".data && decide (9 ≤ l.length) then
    let r1 := l.drop 9
    let ws := r1.takeWhile isPySpace
    if ws.isEmpty then none
    else
      let r2 := r1.drop ws.length
      if eqCI (r2.take 5) "PEMER".data && decide (5 ≤ r2.length) then
        match r2.drop 5 with
        | c :: r3 =>
          if bangI1 c && eqCI (r3.take 4) "NTAH".data && decide (4 ≤ r3.length)
              && boundaryAfter (r3.drop 4) then
            some (9 + ws.length + 5 + 1 + 4, "PERATURAN PEMERINTAH".data)
          else none
        | [] => none
      else none
  else none

/-- Single-character substitution (the ligature and NBSP patterns). -/
def charMapSub (x : Char) (repl : List Char) (l : List Char) : List Char :=
  l.flatMap (fun c => if c == x then repl else [c])

/-- `^[;,.]$` (MULTILINE) → remove. -/
def tryLonePunct (l : List Char) : Option (Nat × List Char) :=
  match l with
  | c :: rest =>
    if (c == ';' || c == ',' || c == '.')
        && (match rest with | [] => true | r :: _ => r == '\n') then
      some (1, [])
    else none
  | [] => none

/-- `^\s*[-_]{3,}\s*$` (MULTILINE) → remove. -/
def tryDashes (l : List Char) : Option (Nat × List Char) :=
  let w := l.takeWhile isPySpace
  let r1 := l.drop w.length
  let d := r1.takeWhile (fun c => c == '-' || c == '_')
  if decide (3 ≤ d.length) then
    match tailWsEnd (r1.drop d.length) with
    | some k => some (w.length + d.length + k, [])
    | none => none
  else none

/-- `re.sub(r'\n{3,}', '\n\n', text)`: cap every newline run at two (the
state counts the newlines already emitted for the current run). -/
def collapseNLAux : Nat → List Char → List Char
  | _, [] => []
  | nlCount, c :: cs =>
    if c = '\n' then
      if 2 ≤ nlCount then collapseNLAux nlCount cs
      else '\n' :: collapseNLAux (nlCount + 1) cs
    else c :: collapseNLAux 0 cs

def collapseNewlines (l : List Char) : List Char :=
  collapseNLAux 0 l

/-- `correct_ocr_errors(text)`: the `_OCR_PATTERNS` substitutions in
source order, then the blank-line collapse. -/
def ocrPass (l : List Char) : List Char :=
  let l := runLineSub
    (tryLineMarker "Pasal".data isSepTab bodyLowerL)
    (fun _ _ => "Pasal 1".data) l
  let l := runScanSub stepP2 l
  let l := runScanSub stepP3 l
  let l := runScanSub stepP4 l
  let l := runScanSub stepP5 l
  let l := runScanSub stepP6 l
  let l := runScanSub (stepWordCI "FRESIDEN".data "PRESIDEN".data) l
  let l := runScanSub (stepWordClasses presidenPats "PRESIDEN".data) l
  let l := runScanSub (stepWordClasses republikPats "REPUBLIK".data) l
  let l := runScanSub (stepWordClasses indonesiaPats "INDONESIA".data) l
  let l := runScanSub stepUndang l
  let l := runScanSub stepPeraturan l
  let l := runScanSub (stepWordCI "MENIMBANG".data "Menimbang".data) l
  let l := runScanSub (stepWordCI "MENGINGAT".data "Mengingat".data) l
  let l := runScanSub (stepWordCI "MEMUTUSKAN".data "MEMUTUSKAN".data) l
  let l := runScanSub (stepWordCI "MENETAPKAN".data "MENETAPKAN".data) l
  let l := charMapSub 'ﬁ' "fi".data l
  let l := charMapSub 'ﬂ' "fl".data l
  let l := charMapSub 'ﬀ' "ff".data l
  let l := charMapSub '\u00A0' " ".data l
  let l := runLineSub tryLonePunct (fun _ _ => []) l
  let l := runLineSub tryDashes (fun _ _ => []) l
  collapseNewlines l

def correctOcrErrors (s : String) : String :=
  ⟨ocrPass s.data⟩

/-! ## `_fix_roman_pasals` (claim C5)

Source: `scripts/parser/parse_structure.py`, lines 42-98. -/

def isRomanChar (c : Char) : Bool :=
  c == 'I' || c == 'V' || c == 'X' || c == 'L' || c == 'C' || c == 'D' || c == 'M'

/-- Body `([IVXLCDM]+)` of the Roman-Pasal patterns. -/
def bodyRoman (l : List Char) : Option (List Char × List Char) :=
  let g := l.takeWhile isRomanChar
  if g.isEmpty then none else some (g, l.drop g.length)

/-- The `_ROMAN_MAP` table (I..XV). -/
def romanToArabic (g : List Char) : Option (List Char) :=
  if g == "I".data then some "1".data
  else if g == "II".data then some "2".data
  else if g == "III".data then some "3".data
  else if g == "IV".data then some "4".data
  else if g == "V".data then some "5".data
  else if g == "VI".data then some "6".data
  else if g == "VII".data then some "7".data
  else if g == "VIII".data then some "8".data
  else if g == "IX".data then some "9".data
  else if g == "X".data then some "10".data
  else if g == "XI".data then some "11".data
  else if g == "XII".data then some "12".data
  else if g == "XIII".data then some "13".data
  else if g == "XIV".data then some "14".data
  else if g == "XV".data then some "15".data
  else none

/-- `_replacer`: `f"{m.group(1)} {arabic}"` for a known Roman numeral,
`m.group(0)` (the whole match, trailing whitespace included) otherwise. -/
def emitRoman (consumed g : List Char) : List Char :=
  match romanToArabic g with
  | some a => "Pasal ".data ++ a
  | none => consumed

/-- The matcher of `_ROMAN_PASAL_RE` (`^(Pasal)[ \t]+([IVXLCDM]+)\s*$`,
MULTILINE). -/
def tryRomanPasal (l : List Char) : Option (Nat × List Char) :=
  tryLineMarker "Pasal".data isSepTab bodyRoman l

/-- `_ROMAN_PASAL_RE.sub(_replacer, text)`. -/
def romanPasalSub (l : List Char) : List Char :=
  runLineSub tryRomanPasal emitRoman l

/-- One match attempt of `_AMENDMENT_RE`
(`Perubahan\s+(?:Atas|Kedua|Ketiga|Keempat)`, IGNORECASE) at the current
position. -/
def amendMatchAt (l : List Char) : Bool :=
  (eqCI (l.take 9) "Perubahan".data && decide (9 ≤ l.length)) &&
    (let r1 := l.drop 9
     let ws := r1.takeWhile isPySpace
     !ws.isEmpty &&
       (let r2 := r1.drop ws.length
        (eqCI (r2.take 4) "Atas".data && decide (4 ≤ r2.length))
        || (eqCI (r2.take 5) "Kedua".data && decide (5 ≤ r2.length))
        || (eqCI (r2.take 6) "Ketiga".data && decide (6 ≤ r2.length))
        || (eqCI (r2.take 7) "Keempat".data && decide (7 ≤ r2.length))))

/-- `re.search`: does the pattern match at any position? -/
def existsMatchFrom (p : List Char → Bool) : List Char → Bool
  | [] => p []
  | c :: cs => p (c :: cs) || existsMatchFrom p cs

/-- `_is_amendment_law(text)`: search `_AMENDMENT_RE` in `text[:2000]`. -/
def isAmendmentLaw (l : List Char) : Bool :=
  existsMatchFrom amendMatchAt (l.take 2000)

/-- One match attempt of `ATURAN_RE`
(`^(ATURAN\s+PERALIHAN|ATURAN\s+TAMBAHAN)\s*$`, MULTILINE): the total
length (with the trailing whitespace of `\s*$`) and `group(1)`. -/
def aturanMatchAt (l : List Char) : Option (Nat × List Char) :=
  match dropPre "ATURAN".data l with
  | none => none
  | some r1 =>
    let ws := r1.takeWhile isPySpace
    if ws.isEmpty then none
    else
      let r2 := r1.drop ws.length
      match dropPre "PERALIHAN".data r2 with
      | some r3 =>
        match tailWsEnd r3 with
        | some k => some (6 + ws.length + 9 + k, "ATURAN".data ++ ws ++ "PERALIHAN".data)
        | none => none
      | none =>
        match dropPre "TAMBAHAN".data r2 with
        | some r3 =>
          match tailWsEnd r3 with
          | some k => some (6 + ws.length + 8 + k, "ATURAN".data ++ ws ++ "TAMBAHAN".data)
          | none => none
        | none => none

/-- `re.search` for a MULTILINE `^`-anchored pattern: the position of the
first line start where the pattern matches. -/
def findLineStart (tryM : List Char → Option (Nat × List Char)) :
    Nat → Bool → List Char → Option Nat
  | _, _, [] => none
  | pos, atStart, c :: cs =>
    if atStart then
      match tryM (c :: cs) with
      | some _ => some pos
      | none => findLineStart tryM (pos + 1) (c == '\n') cs
    else findLineStart tryM (pos + 1) (c == '\n') cs

/-- `ATURAN_RE.search(text)`: start position of the first match. -/
def findAturanStart (l : List Char) : Option Nat :=
  findLineStart aturanMatchAt 0 true l

/-- `_fix_roman_pasals(text)`. -/
def fixRomanPasalsL (l : List Char) : List Char :=
  if isAmendmentLaw l then l
  else
    match findAturanStart l with
    | some p => romanPasalSub (l.take p) ++ l.drop p
    | none => romanPasalSub l

def fixRomanPasals (s : String) : String :=
  ⟨fixRomanPasalsL s.data⟩

/-- Whether a single line (no newline inside) is a standalone Roman-Pasal
marker `Pasal[ \t]+([IVXLCDM]+)[ws]*`; returns the Roman group. -/
def lineMarkerRoman (L : List Char) : Option (List Char) :=
  match dropPre "Pasal".data L with
  | none => none
  | some r1 =>
    if (r1.takeWhile isSepTab).isEmpty then none
    else
      let r2 := r1.drop (r1.takeWhile isSepTab).length
      let g := r2.takeWhile isRomanChar
      if g.isEmpty then none
      else if (r2.drop g.length).all isPySpace then some g
      else none

/-- The per-line effect of the rewrite: a marker line with a known Roman
numeral becomes `Pasal <arabic>`; every other line is unchanged. -/
def fixLine (L : List Char) : List Char :=
  match lineMarkerRoman L with
  | some g =>
    match romanToArabic g with
    | some a => "Pasal ".data ++ a
    | none => L
  | none => L

/-- `"\n".join(lines)`. -/
def joinLines : List (List Char) → List Char
  | [] => []
  | [L] => L
  | L :: N :: rest => L ++ '\n' :: joinLines (N :: rest)

/-- Every Roman-Pasal marker line that is not the last line is followed
by a line holding at least one non-whitespace character (so the greedy
`\s*$` of the pattern stops at the end of the marker line). -/
def markersFollowed : List (List Char) → Bool
  | [] => true
  | [_] => true
  | L :: N :: rest =>
    ((lineMarkerRoman L).isNone || N.any (fun c => !isPySpace c))
      && markersFollowed (N :: rest)

/-! ## `parse_structure` (claim C3)

Source: `scripts/parser/parse_structure.py`.  The regular expressions
are embedded as explicit scanners with Python `re` semantics (MULTILINE
anchors, greedy quantifiers, IGNORECASE by ASCII case folding; the
character classes `\d` and `\w` are modelled on the ASCII range the
source's inputs use). -/

def asciiUpper (c : Char) : Char :=
  if 'a' ≤ c ∧ c ≤ 'z' then Char.ofNat (c.toNat - 32) else c

def upperL (l : List Char) : List Char :=
  l.map asciiUpper

/-- A node of the output tree.  The Python code builds dicts with keys
`type, number, heading, content, children, sort_order` (ayat dicts carry
no `heading`, `pasal` dicts no `heading`: those fields are `""` here). -/
inductive PNode where
  | mk (ntype number heading content : String) (children : List PNode) (sortOrder : Nat)

def PNode.ntype : PNode → String
  | .mk t _ _ _ _ _ => t

def PNode.sortOrder : PNode → Nat
  | .mk _ _ _ _ _ s => s

/-- Match of `I\.\s*UMUM` at the current position (length). -/
def umumMatchAt (l : List Char) : Option Nat :=
  match l with
  | 'I' :: '.' :: r =>
    let w := r.takeWhile isPySpace
    if "UMUM".data.isPrefixOf (r.drop w.length) then some (2 + w.length + 4) else none
  | _ => none

/-- Match of `\s*PASAL\s+DEMI\s+PASAL` (length). -/
def pdmTail (r : List Char) : Option Nat :=
  let w := r.takeWhile isPySpace
  let r1 := r.drop w.length
  if "PASAL".data.isPrefixOf r1 then
    let r2 := r1.drop 5
    let w2 := r2.takeWhile isPySpace
    if w2.isEmpty then none
    else
      let r3 := r2.drop w2.length
      if "DEMI".data.isPrefixOf r3 then
        let r4 := r3.drop 4
        let w3 := r4.takeWhile isPySpace
        if w3.isEmpty then none
        else if "PASAL".data.isPrefixOf (r4.drop w3.length) then
          some (w.length + 5 + w2.length + 4 + w3.length + 5)
        else none
      else none
  else none

/-- Match of `II\.\s*PASAL\s+DEMI\s+PASAL` at the current position. -/
def pasalDemiMatchAt (l : List Char) : Option Nat :=
  match l with
  | 'I' :: 'I' :: '.' :: r => (pdmTail r).map (3 + ·)
  | _ => none

/-- The fallback pattern `^(?:I\.\s*UMUM|II?\.\s*PASAL\s+DEMI\s+PASAL)`
at the current (line-start) position. -/
def fallbackAt (l : List Char) : Bool :=
  (umumMatchAt l).isSome
  || (match l with
      | 'I' :: 'I' :: '.' :: r => (pdmTail r).isSome
      | _ => false)
  || (match l with
      | 'I' :: '.' :: r => (pdmTail r).isSome
      | _ => false)

/-- `^\s*PENJELASAN\s*$` (MULTILINE) at the current line start. -/
def penjelasanAt (l : List Char) : Bool :=
  let w := l.takeWhile isPySpace
  let r := l.drop w.length
  "PENJELASAN".data.isPrefixOf r && (tailWsEnd (r.drop 10)).isSome

/-- Unanchored `re.search`: first position (with match length) at which
the matcher succeeds. -/
def searchFrom (f : List Char → Option Nat) : Nat → List Char → Option (Nat × Nat)
  | pos, [] => match f [] with | some n => some (pos, n) | none => none
  | pos, c :: cs =>
    match f (c :: cs) with
    | some n => some (pos, n)
    | none => searchFrom f (pos + 1) cs

/-- `str.rfind("\n\n")`: start index of the last occurrence. -/
def rfindNNAux : List Char → Nat → Option Nat → Option Nat
  | [], _, best => best
  | c :: rest, i, best =>
    rfindNNAux rest (i + 1)
      (if c == '\n' && (rest.head? == some '\n') then some i else best)

/-- Python slice index for `text[:p]` / `text[p:]` (negative indices
count from the end and are clamped). -/
def pySlicePos (sp : Int) (len : Nat) : Nat :=
  if sp < 0 then len - (-sp).toNat else min sp.toNat len

/-- The PENJELASAN split position of `parse_structure`: the
`PENJELASAN_RE.search` start, or the fallback (`I. UMUM` / `II. PASAL
DEMI PASAL` in the latter half, walked back to the last blank line when
that is near enough), as a Python index (may be `-1` from `rfind`). -/
def penjelasanSplit (l : List Char) : Option Int :=
  match findLineStart (fun s => if penjelasanAt s then some (0, []) else none) 0 true l with
  | some p => some (p : Int)
  | none =>
    let half := l.length / 2
    match findLineStart (fun s => if fallbackAt s then some (0, []) else none) 0 true
        (l.drop half) with
    | some fb =>
      let absPos := half + fb
      let lastBlank : Int :=
        match rfindNNAux (l.take absPos) 0 none with
        | some i => (i : Int)
        | none => -1
      some (if lastBlank > (half : Int) - 200 then lastBlank else (absPos : Int))
    | none => none

/-- A structural marker `(type, number, line_start, line_end)`. -/
structure Marker where
  mtype : String
  number : String
  mstart : Nat
  mend : Nat
deriving DecidableEq

/-- `re.finditer` for a MULTILINE `^`-anchored pattern: all
non-overlapping matches as `(start, end, group)`, scanning resuming at
each match end. -/
def finditerLine (tryM : List Char → Option (Nat × List Char)) :
    Nat → Nat → Bool → List Char → List (Nat × Nat × List Char)
  | 0, _, _, _ => []
  | _ + 1, _, _, [] => []
  | fuel + 1, pos, atStart, c :: cs =>
    match (if atStart then tryM (c :: cs) else none) with
    | some (n, g) =>
      match n with
      | 0 => (pos, pos, g) :: finditerLine tryM fuel (pos + 1) (c == '\n') cs
      | n + 1 =>
        (pos, pos + n + 1, g)
          :: finditerLine tryM fuel (pos + n + 1)
              (((c :: cs).take (n + 1)).getLast? == some '\n') (cs.drop n)
    | none => finditerLine tryM fuel (pos + 1) (c == '\n') cs

def runFinditer (tryM : List Char → Option (Nat × List Char)) (l : List Char) :
    List (Nat × Nat × List Char) :=
  finditerLine tryM l.length 0 true l

/-- Body `(\d+)` of `PARAGRAF_RE`. -/
def bodyDigits (l : List Char) : Option (List Char × List Char) :=
  let d := l.takeWhile Char.isDigit
  if d.isEmpty then none else some (d, l.drop d.length)

/-- Body `(\d+[A-Z]?)` of `PASAL_RE`. -/
def bodyNum (l : List Char) : Option (List Char × List Char) :=
  let d := l.takeWhile Char.isDigit
  if d.isEmpty then none
  else
    match l.drop d.length with
    | c :: rest =>
      if 'A' ≤ c && c ≤ 'Z' then some (d ++ [c], rest) else some (d, c :: rest)
    | [] => some (d, [])

def tryBab (l : List Char) : Option (Nat × List Char) :=
  tryLineMarker "BAB".data isPySpace bodyRoman l

def tryParagraf (l : List Char) : Option (Nat × List Char) :=
  tryLineMarker "Paragraf".data isPySpace bodyDigits l

def tryPasalArabic (l : List Char) : Option (Nat × List Char) :=
  tryLineMarker "Pasal".data isSepTab bodyNum l

/-- One fixed-word alternative of `BAGIAN_RE` (IGNORECASE). -/
def altWord (w l : List Char) : Option Nat :=
  if decide (w.length ≤ l.length) && eqCI (l.take w.length) w then some w.length else none

/-- A two-word alternative `w1\s*w2` of `BAGIAN_RE`. -/
def altWord2 (w1 w2 l : List Char) : Option Nat :=
  match altWord w1 l with
  | none => none
  | some k1 =>
    let r := l.drop k1
    let ws := r.takeWhile isPySpace
    match altWord w2 (r.drop ws.length) with
    | some k2 => some (k1 + ws.length + k2)
    | none => none

/-- The `Ke-\d+` alternative of `BAGIAN_RE`. -/
def altKeNum (l : List Char) : Option Nat :=
  match altWord "Ke-".data l with
  | none => none
  | some _ =>
    let d := (l.drop 3).takeWhile Char.isDigit
    if d.isEmpty then none else some (3 + d.length)

/-- The ordered alternation of `BAGIAN_RE`'s group (first matching
alternative wins, as in Python's regex alternation). -/
def bagianAlt (l : List Char) : Option Nat :=
  (altWord "Kesatu".data l).or ((altWord "Kedua".data l).or
    ((altWord "Ketiga".data l).or ((altWord "Keempat".data l).or
      ((altWord "Kelima".data l).or ((altWord "Keenam".data l).or
        ((altWord "Ketujuh".data l).or ((altWord "Kedelapan".data l).or
          ((altWord "Kesembilan".data l).or ((altWord "Kesepuluh".data l).or
            ((altWord "Kesebelas".data l).or
              ((altWord2 "Kedua".data "Belas".data l).or
                ((altWord2 "Ketiga".data "Belas".data l).or
                  ((altWord2 "Keempat".data "Belas".data l).or
                    ((altWord2 "Kelima".data "Belas".data l).or
                      ((altWord2 "Keenam".data "Belas".data l).or
                        ((altWord2 "Ketujuh".data "Belas".data l).or
                          ((altWord2 "Kedelapan".data "Belas".data l).or
                            ((altWord2 "Kesembilan".data "Belas".data l).or
                              ((altWord2 "Kedua".data "Puluh".data l).or
                                (altKeNum l))))))))))))))))))))

/-- `BAGIAN_RE` (`^Bagian\s+(alternation)`, IGNORECASE, no `$`). -/
def tryBagian (l : List Char) : Option (Nat × List Char) :=
  if decide (6 ≤ l.length) && eqCI (l.take 6) "Bagian".data then
    let r1 := l.drop 6
    let w := r1.takeWhile isPySpace
    if w.isEmpty then none
    else
      match bagianAlt (r1.drop w.length) with
      | some k => some (6 + w.length + k, (r1.drop w.length).take k)
      | none => none
  else none

/-- Stable insertion by marker start position (Python's stable
`list.sort(key=lambda x: x[2])`). -/
def insertPos (m : Marker) : List Marker → List Marker
  | [] => [m]
  | x :: xs => if m.mstart ≤ x.mstart then m :: x :: xs else x :: insertPos m xs

def sortByPos : List Marker → List Marker
  | [] => []
  | m :: ms => insertPos m (sortByPos ms)

/-- `_find_markers`: the six finditer passes in source order, the
Roman-Pasal dedup against earlier markers with the same start, then the
stable sort by position. -/
def findMarkers (b : List Char) : List Marker :=
  let bab := (runFinditer tryBab b).map fun x => (⟨"bab", ⟨x.2.2⟩, x.1, x.2.1⟩ : Marker)
  let aturan := (runFinditer aturanMatchAt b).map
    fun x => (⟨"aturan", ⟨pyStripL x.2.2⟩, x.1, x.2.1⟩ : Marker)
  let bagian := (runFinditer tryBagian b).map fun x => (⟨"bagian", ⟨x.2.2⟩, x.1, x.2.1⟩ : Marker)
  let paragraf := (runFinditer tryParagraf b).map
    fun x => (⟨"paragraf", ⟨x.2.2⟩, x.1, x.2.1⟩ : Marker)
  let pasal := (runFinditer tryPasalArabic b).map
    fun x => (⟨"pasal", ⟨x.2.2⟩, x.1, x.2.1⟩ : Marker)
  let base := bab ++ aturan ++ bagian ++ paragraf ++ pasal
  let withRoman := (runFinditer tryRomanPasal b).foldl
    (fun acc x =>
      if acc.any (fun mk => mk.mstart == x.1) then acc
      else acc ++ [(⟨"pasal", ⟨x.2.2⟩, x.1, x.2.1⟩ : Marker)]) base
  sortByPos withRoman

/-- `text.split('\n')`. -/
def splitNLAux : List Char → List Char → List (List Char)
  | [], acc => [acc.reverse]
  | c :: rest, acc =>
    if c == '\n' then acc.reverse :: splitNLAux rest [] else splitNLAux rest (c :: acc)

def splitNL (l : List Char) : List (List Char) :=
  splitNLAux l []

/-- `' '.join(...)`. -/
def joinSpace : List (List Char) → List Char
  | [] => []
  | [x] => x
  | x :: y :: rest => x ++ ' ' :: joinSpace (y :: rest)

def isRomanCharCI (c : Char) : Bool :=
  isRomanChar (asciiUpper c)

def isAsciiAlpha (c : Char) : Bool :=
  ('A' ≤ c && c ≤ 'Z') || ('a' ≤ c && c ≤ 'z')

/-- The alternatives of `BOUNDARY_RE` (all IGNORECASE), in source order;
each returns its consumed length. -/
def altBab (st : List Char) : Option Nat :=
  match altWord "BAB".data st with
  | none => none
  | some _ =>
    let r := st.drop 3
    let w := r.takeWhile isPySpace
    if w.isEmpty then none
    else
      let g := (r.drop w.length).takeWhile isRomanCharCI
      if g.isEmpty then none else some (3 + w.length + g.length)

def altPasalNum (st : List Char) : Option Nat :=
  match altWord "Pasal".data st with
  | none => none
  | some _ =>
    let r := st.drop 5
    let w := r.takeWhile isSepTab
    if w.isEmpty then none
    else
      let r2 := r.drop w.length
      let d := r2.takeWhile Char.isDigit
      if d.isEmpty then none
      else
        match r2.drop d.length with
        | c :: _ => if isAsciiAlpha c then some (5 + w.length + d.length + 1)
            else some (5 + w.length + d.length)
        | [] => some (5 + w.length + d.length)

def altPasalRoman (st : List Char) : Option Nat :=
  match altWord "Pasal".data st with
  | none => none
  | some _ =>
    let r := st.drop 5
    let w := r.takeWhile isSepTab
    if w.isEmpty then none
    else
      let g := (r.drop w.length).takeWhile isRomanCharCI
      if g.isEmpty then none else some (5 + w.length + g.length)

def altBagianW (st : List Char) : Option Nat :=
  match altWord "Bagian".data st with
  | none => none
  | some _ =>
    let r := st.drop 6
    let w := r.takeWhile isPySpace
    if w.isEmpty then none
    else
      let g := (r.drop w.length).takeWhile isWordChar
      if g.isEmpty then none else some (6 + w.length + g.length)

def altParagrafD (st : List Char) : Option Nat :=
  match altWord "Paragraf".data st with
  | none => none
  | some _ =>
    let r := st.drop 8
    let w := r.takeWhile isPySpace
    if w.isEmpty then none
    else
      let d := (r.drop w.length).takeWhile Char.isDigit
      if d.isEmpty then none else some (8 + w.length + d.length)

def altAturanKw (kw : List Char) (st : List Char) : Option Nat :=
  match altWord "ATURAN".data st with
  | none => none
  | some _ =>
    let r := st.drop 6
    let w := r.takeWhile isPySpace
    if w.isEmpty then none
    else
      match altWord kw (r.drop w.length) with
      | some k => some (6 + w.length + k)
      | none => none

def boundaryAlt (st : List Char) : Option Nat :=
  (altBab st).or ((altPasalNum st).or ((altPasalRoman st).or ((altBagianW st).or
    ((altParagrafD st).or ((altWord "PENJELASAN".data st).or
      ((altAturanKw "PERALIHAN".data st).or (altAturanKw "TAMBAHAN".data st)))))))

/-- `BOUNDARY_RE.match(stripped)`: an alternative matches from position 0
and the remainder is whitespace (`\s*$` with no newline present). -/
def boundaryMatch (st : List Char) : Bool :=
  match boundaryAlt st with
  | some k => (st.drop k).all isPySpace
  | none => false

/-- The line loop of `_extract_heading`: returns the collected heading
lines and `content_start`. -/
def ehLoop : List (List Char) → Nat → List (List Char) → Nat → List (List Char) × Nat
  | [], _, hl, cst => (hl, cst)
  | line :: rest, j, hl, cst =>
    let st := pyStripL line
    if st.isEmpty then
      if hl.isEmpty then ehLoop rest (j + 1) hl cst else (hl, j + 1)
    else if boundaryMatch st then (hl, j)
    else
      let hl2 := hl ++ [st]
      if decide (3 ≤ hl2.length) then (hl2, j + 1)
      else ehLoop rest (j + 1) hl2 (j + 1)

def extractHeading (raw : List Char) : List Char × List Char :=
  let lines := splitNL raw
  let r := ehLoop lines 0 [] 0
  (joinSpace r.1, pyStripL (joinLines (lines.drop r.2)))

/-- `^\((\d+)\)\s*` (MULTILINE), with `m.end()` after the greedy `\s*`. -/
def tryAyat (l : List Char) : Option (Nat × List Char) :=
  match l with
  | '(' :: r =>
    let d := r.takeWhile Char.isDigit
    if d.isEmpty then none
    else
      match r.drop d.length with
      | ')' :: r2 => some (1 + d.length + 1 + (r2.takeWhile isPySpace).length, d)
      | _ => none
  | _ => none

/-- The `_parse_ayat` loop with its `seen` first-occurrence dedup. -/
def ayatLoop (content : List Char) :
    List (Nat × Nat × List Char) → List (List Char) → List PNode
  | [], _ => []
  | x :: rest, seen =>
    let endp := match rest with | y :: _ => y.1 | [] => content.length
    if seen.contains x.2.2 then ayatLoop content rest seen
    else
      PNode.mk "ayat" ⟨x.2.2⟩ "" ⟨pyStripL ((content.take endp).drop x.2.1)⟩ [] 0
        :: ayatLoop content rest (x.2.2 :: seen)

def ayatNodes (content : List Char) : List PNode :=
  ayatLoop content (runFinditer tryAyat content) []

/-- A section node still open for children (the loop's mutable
`current_bab`/`current_bagian` aliasing is modelled as a stack of open
nodes, outermost first; children are appended to the innermost). -/
structure OpenN where
  ntype : String
  number : String
  heading : String
  content : String
  sortOrder : Nat
  kids : List PNode

def closeN (o : OpenN) : PNode :=
  PNode.mk o.ntype o.number o.heading o.content o.kids o.sortOrder

def collapseFrom (o : OpenN) : List OpenN → PNode
  | [] => closeN o
  | p :: rest => closeN { o with kids := o.kids ++ [collapseFrom p rest] }

def collapseOpt : List OpenN → List PNode
  | [] => []
  | o :: rest => [collapseFrom o rest]

def addToInnermost : List OpenN → PNode → List OpenN
  | [], _ => []
  | [o], n => [{ o with kids := o.kids ++ [n] }]
  | o :: p :: rest, n => o :: addToInnermost (p :: rest) n

structure LoopSt where
  roots : List PNode
  stack : List OpenN
  so : Nat

/-- One iteration of the marker loop of `parse_structure`. -/
def markerStep (body : List Char) (nextStart : Nat) (m : Marker) (st : LoopSt) : LoopSt :=
  let raw := pyStripL ((body.take nextStart).drop m.mend)
  if m.mtype == "bab" then
    let hr := extractHeading raw
    { roots := st.roots ++ collapseOpt st.stack,
      stack := [⟨"bab", m.number, ⟨hr.1⟩, ⟨hr.2⟩, st.so, []⟩], so := st.so + 1 }
  else if m.mtype == "aturan" then
    { roots := st.roots ++ collapseOpt st.stack,
      stack := [⟨"aturan", m.number, m.number, ⟨raw⟩, st.so, []⟩], so := st.so + 1 }
  else if m.mtype == "bagian" then
    let hr := extractHeading raw
    let o : OpenN := ⟨"bagian", m.number, ⟨hr.1⟩, ⟨hr.2⟩, st.so, []⟩
    match st.stack with
    | [] => { roots := st.roots, stack := [o], so := st.so + 1 }
    | b :: rest =>
      if b.ntype == "bab" || b.ntype == "aturan" then
        { roots := st.roots,
          stack := [{ b with kids := b.kids ++ collapseOpt rest }, o], so := st.so + 1 }
      else
        { roots := st.roots ++ [collapseFrom b rest], stack := [o], so := st.so + 1 }
  else if m.mtype == "paragraf" then
    let hr := extractHeading raw
    { roots := st.roots,
      stack := st.stack ++ [⟨"paragraf", m.number, ⟨hr.1⟩, ⟨hr.2⟩, st.so, []⟩],
      so := st.so + 1 }
  else if m.mtype == "pasal" then
    let n := PNode.mk "pasal" m.number "" ⟨raw⟩ (ayatNodes raw) st.so
    match st.stack with
    | [] => { roots := st.roots ++ [n], stack := [], so := st.so + 1 }
    | o :: rest => { roots := st.roots, stack := addToInnermost (o :: rest) n, so := st.so + 1 }
  else st

def markerLoop (body : List Char) : List Marker → LoopSt → LoopSt
  | [], st => st
  | m :: rest, st =>
    let ns := match rest with | m2 :: _ => m2.mstart | [] => body.length
    markerLoop body rest (markerStep body ns m st)

/-- The body part of `parse_structure`: preamble node, marker loop, and
the no-marker `content` fallback. -/
def bodyNodesAll (body : List Char) : List PNode :=
  let markers := findMarkers body
  let firstPos := match markers with | m :: _ => m.mstart | [] => body.length
  let pre := pyStripL (body.take firstPos)
  let preNodes : List PNode :=
    if pre.isEmpty then [] else [PNode.mk "preamble" "" "" ⟨pre⟩ [] 0]
  let st := markerLoop body markers ⟨preNodes, [], preNodes.length⟩
  let roots := st.roots ++ collapseOpt st.stack
  if markers.isEmpty && pre.isEmpty then
    roots ++ [PNode.mk "content" "" "" ⟨pyStripL body⟩ [] st.so]
  else roots

/-- `re.sub(r'^PENJELASAN\s*', '', s)` (no MULTILINE: position 0 only). -/
def dropPenjelasanHeader (s : List Char) : List Char :=
  if "PENJELASAN".data.isPrefixOf s then
    let r := s.drop 10
    r.drop (r.takeWhile isPySpace).length
  else s

/-- The `(Pasal\s+\d+[A-Z]?)\s*\n` split pattern: (group length, total
length including the greedy `\s*` and the final newline). -/
def trySplitPat (l : List Char) : Option (Nat × Nat) :=
  if "Pasal".data.isPrefixOf l then
    let r := l.drop 5
    let w := r.takeWhile isPySpace
    if w.isEmpty then none
    else
      let r2 := r.drop w.length
      let d := r2.takeWhile Char.isDigit
      if d.isEmpty then none
      else
        let gr :=
          match r2.drop d.length with
          | c :: rest2 =>
            if 'A' ≤ c && c ≤ 'Z' then (5 + w.length + d.length + 1, rest2)
            else (5 + w.length + d.length, c :: rest2)
          | [] => (5 + w.length + d.length, ([] : List Char))
        match lastNewlineIdx (gr.2.takeWhile isPySpace) with
        | some k => some (gr.1, gr.1 + k + 1)
        | none => none
  else none

/-- `re.split` with one capturing group: alternating segments and
captured separators. -/
def splitScan : Nat → List Char → List Char → List (List Char)
  | 0, acc, l => [acc ++ l]
  | _ + 1, acc, [] => [acc]
  | fuel + 1, acc, c :: cs =>
    match trySplitPat (c :: cs) with
    | some (glen, seplen) =>
      acc :: (c :: cs).take glen :: splitScan fuel [] ((c :: cs).drop seplen)
    | none => splitScan fuel (acc ++ [c]) cs

def splitPasal (l : List Char) : List (List Char) :=
  splitScan l.length [] l

/-- `re.match(r'Pasal\s+(\d+[A-Z]?)', header)`: the captured number. -/
def pasalNumOf (st : List Char) : Option (List Char) :=
  if "Pasal".data.isPrefixOf st then
    let r := st.drop 5
    let w := r.takeWhile isPySpace
    if w.isEmpty then none
    else
      let r2 := r.drop w.length
      let d := r2.takeWhile Char.isDigit
      if d.isEmpty then none
      else
        match r2.drop d.length with
        | c :: _ => if 'A' ≤ c && c ≤ 'Z' then some (d ++ [c]) else some d
        | [] => some d
  else none

/-- The `while i < len(splits) - 1` pairs loop of `parse_penjelasan`. -/
def penjPasalPairs : List (List Char) → List PNode
  | g :: c :: rest =>
    (match pasalNumOf (pyStripL g) with
     | some num =>
       [PNode.mk "penjelasan_pasal" ⟨num⟩ ⟨"Penjelasan Pasal ".data ++ num⟩ ⟨pyStripL c⟩ []
         (90002 + digitsToNat (num.takeWhile Char.isDigit))]
     | none => []) ++ penjPasalPairs rest
  | _ => []

def parsePenjelasan (l : List Char) : List PNode :=
  let umum := searchFrom umumMatchAt 0 l
  let pd := searchFrom pasalDemiMatchAt 0 l
  if umum.isNone && pd.isNone then
    let content :=
      if "PENJELASAN".data.isPrefixOf (upperL l) then pyStripL (l.drop 10) else pyStripL l
    if content.isEmpty then []
    else [PNode.mk "penjelasan_umum" "" "Penjelasan" ⟨content⟩ [] 90000]
  else
    (match umum with
     | some x =>
       let pre2 := pyStripL (dropPenjelasanHeader (pyStripL (l.take x.1)))
       if !pre2.isEmpty && decide (20 < pre2.length) then
         [PNode.mk "penjelasan_umum" "" "Penjelasan — Pendahuluan" ⟨pre2⟩ [] 89999]
       else []
     | none => []) ++
    (match umum with
     | some x =>
       let ue := match pd with | some y => y.1 | none => l.length
       let ut := pyStripL ((l.take ue).drop (x.1 + x.2))
       if ut.isEmpty then []
       else [PNode.mk "penjelasan_umum" "" "Penjelasan Umum" ⟨ut⟩ [] 90000]
     | none => []) ++
    (match pd with
     | some y =>
       let splits := splitPasal (l.drop (y.1 + y.2))
       (match splits with
        | s0 :: _ =>
          let pp := pyStripL s0
          if !pp.isEmpty && decide (20 < pp.length) then
            [PNode.mk "penjelasan_umum" "" "Penjelasan Pasal Demi Pasal — Pendahuluan"
              ⟨pp⟩ [] 90001]
          else []
        | [] => []) ++ penjPasalPairs (splits.drop 1)
     | none => [])

/-- `parse_structure`. -/
def parseStructure (t : String) : List PNode :=
  let tl := fixRomanPasalsL t.data
  match penjelasanSplit tl with
  | some sp =>
    let p := pySlicePos sp tl.length
    bodyNodesAll (tl.take p) ++ parsePenjelasan (tl.drop p)
  | none => bodyNodesAll tl

/-- The node types the marker loop can create. -/
def markerKinds : List String := ["bab", "aturan", "bagian", "paragraf", "pasal"]

/-! ## `_extract_and_load` / `process_jobs` (claim C4)

Source: `scripts/worker/process.py`, lines 250-278 and 441-467.  The
effectful collaborators are abstracted as an environment record:
`text` is `extract_text_pymupdf(pdf_path)[0]`; `quality` is
`classify_pdf_quality(pdf_path)[0]` (that module is imported from
`parser.classify_pdf`, which is not under `src/`, so its result is an
arbitrary string here); `workId` is `load_work`'s return (`none` for a
falsy result); `pasalCount`/`chunkCount` stand for the values the
database calls `load_nodes_by_level`/`create_chunks` return. -/

structure PdfEnv where
  text : String
  quality : String
  workId : Option Nat
  pasalCount : Nat
  chunkCount : Nat

/-- `_extract_and_load`: raises (`Except.error`) on short text or a
failed upsert; `quality` is computed and never used again (the comment
in the source says OCR correction runs for all PDFs). -/
def extractAndLoad (env : PdfEnv) : Except String (Nat × Nat × Nat) :=
  if env.text == "" || decide (env.text.length < 100) then
    Except.error "PDF text too short"
  else
    let _quality := env.quality
    let text := correctOcrErrors env.text
    let _nodes := parseStructure text
    match env.workId with
    | none => Except.error "Failed to upsert work"
    | some wid => Except.ok (wid, env.pasalCount, env.chunkCount)

/-- The status `process_jobs` writes for the job: `"loaded"` when
`_extract_and_load` returns, `"failed"` from the exception handlers.
No code path writes `"needs_ocr"`. -/
def processJobStatus (env : PdfEnv) : String :=
  match extractAndLoad env with
  | Except.ok _ => "loaded"
  | Except.error _ => "failed"

/-! ## Theorems -/

/-! ## Properties of the page loop and the page joiner -/

theorem overlapScan_spec (res page : List Char) (k : Nat) :
    (overlapScan res page k = 0 →
      ∀ L, 11 ≤ L → L ≤ k → isOverlap res page L = false)
    ∧ (0 < overlapScan res page k →
      11 ≤ overlapScan res page k ∧ overlapScan res page k ≤ k ∧
      isOverlap res page (overlapScan res page k) = true ∧
      ∀ L, overlapScan res page k < L → L ≤ k → isOverlap res page L = false) := by
  induction k with
  | zero =>
    refine ⟨fun _ L hL hL0 => absurd (Nat.le_trans hL hL0) (by omega), ?_⟩
    intro h
    simp [overlapScan] at h
  | succ k ih =>
    by_cases hsmall : k + 1 ≤ 10
    · rw [overlapScan, if_pos hsmall]
      refine ⟨fun _ L hL hLk => ?_, fun h => absurd h (by omega)⟩
      omega
    · by_cases hov : isOverlap res page (k + 1)
      · rw [overlapScan, if_neg hsmall, if_pos hov]
        refine ⟨fun h => absurd h (by omega), fun _ => ⟨by omega, Nat.le_refl _, hov, ?_⟩⟩
        intro L hL hLk
        omega
      · rw [overlapScan, if_neg hsmall, if_neg hov]
        refine ⟨fun h L hL hLk => ?_, fun h => ?_⟩
        · rcases Nat.lt_or_ge L (k + 1) with hlt | hge
          · exact ih.1 h L hL (by omega)
          · have : L = k + 1 := by omega
            subst this
            exact Bool.eq_false_iff.mpr hov
        · obtain ⟨h1, h2, h3, h4⟩ := ih.2 h
          refine ⟨h1, by omega, h3, fun L hL hLk => ?_⟩
          rcases Nat.lt_or_ge L (k + 1) with hlt | hge
          · exact h4 L hL (by omega)
          · have : L = k + 1 := by omega
            subst this
            exact Bool.eq_false_iff.mpr hov

/-- **C7.** `_dedup_page_breaks` joins a non-empty page list left to right;
at each junction it uses the longest length `M` with `11 ≤ M ≤
min(200, len(result), len(page))` such that the last `M` characters of the
accumulated text are a prefix of the next page, dropping that prefix from
the next page; when no such length exists it inserts exactly one newline. -/
theorem dedupPageBreaks_spec (p : String) (rest : List String) (res page : List Char) :
    dedupPageBreaks (p :: rest)
      = ⟨rest.foldl (fun acc q => dedupStep acc q.data) p.data⟩
    ∧ ((∀ L, 11 ≤ L → L ≤ min 200 (min res.length page.length) →
          isOverlap res page L = false) →
        dedupStep res page = res ++ '\n' :: page)
    ∧ (∀ L, 11 ≤ L → L ≤ min 200 (min res.length page.length) →
        isOverlap res page L = true →
        ∃ M, 11 ≤ M ∧ M ≤ min 200 (min res.length page.length) ∧
          isOverlap res page M = true ∧
          (∀ K, M < K → K ≤ min 200 (min res.length page.length) →
            isOverlap res page K = false) ∧
          dedupStep res page = res ++ page.drop M) := by
  refine ⟨rfl, fun hnone => ?_, fun L hL hLmax hov => ?_⟩
  · have hz : overlapScan res page (min 200 (min res.length page.length)) = 0 := by
      by_contra h
      have hpos : 0 < overlapScan res page (min 200 (min res.length page.length)) :=
        Nat.pos_of_ne_zero h
      obtain ⟨h1, h2, h3, _⟩ := (overlapScan_spec res page _).2 hpos
      rw [hnone _ h1 h2] at h3
      exact Bool.false_ne_true h3
    simp only [dedupStep, hz]
    rfl
  · have hpos : 0 < overlapScan res page (min 200 (min res.length page.length)) := by
      rcases Nat.eq_zero_or_pos (overlapScan res page (min 200 (min res.length page.length)))
        with hz | hp
      · have := (overlapScan_spec res page _).1 hz L hL hLmax
        rw [hov] at this
        exact absurd this (by simp)
      · exact hp
    obtain ⟨h1, h2, h3, h4⟩ := (overlapScan_spec res page _).2 hpos
    refine ⟨_, h1, h2, h3, h4, ?_⟩
    simp only [dedupStep, if_pos hpos]

/-- C7 witness: a concrete junction where an overlap of length 11 is
found and the prefix is dropped from the second page. -/
theorem dedupPageBreaks_spec_witness :
    ∃ M, 11 ≤ M ∧ M ≤ min 200 (min ("abcdefghijk".data).length ("abcdefghijklm".data).length) ∧
      isOverlap "abcdefghijk".data "abcdefghijklm".data M = true ∧
      (∀ K, M < K → K ≤ min 200 (min ("abcdefghijk".data).length ("abcdefghijklm".data).length) →
        isOverlap "abcdefghijk".data "abcdefghijklm".data K = false) ∧
      dedupStep "abcdefghijk".data "abcdefghijklm".data
        = "abcdefghijk".data ++ "abcdefghijklm".data.drop M :=
  (dedupPageBreaks_spec "a" [] "abcdefghijk".data "abcdefghijklm".data).2.2
    11 (by decide) (by decide) (by decide)

theorem pageStep_fst (acc : List String × ExtractStats) (p : Page) :
    (pageStep acc p).1 = if pageKeep p.text then p.text :: acc.1 else acc.1 := by
  by_cases hk : pageKeep p.text <;>
    by_cases him : p.images ≠ 0 <;>
      by_cases hemp : p.text = "" ∨ (pyStrip p.text).length < 20 <;>
        simp [pageStep, hk, him, hemp]

theorem pageStep_empty (acc : List String × ExtractStats) (p : Page) :
    (pageStep acc p).2.emptyPages
      = if pageKeep p.text then acc.2.emptyPages else acc.2.emptyPages + 1 := by
  by_cases hk : pageKeep p.text <;>
    by_cases him : p.images ≠ 0 <;>
      by_cases hemp : p.text = "" ∨ (pyStrip p.text).length < 20 <;>
        simp [pageStep, hk, him, hemp]

theorem foldl_pageStep_fst (ps : List Page) (acc : List String × ExtractStats) :
    (ps.foldl pageStep acc).1
      = ((ps.map Page.text).filter pageKeep).reverse ++ acc.1 := by
  induction ps generalizing acc with
  | nil => simp
  | cons p ps ih =>
    simp only [List.foldl_cons, List.map_cons, List.filter_cons]
    rw [ih, pageStep_fst]
    by_cases hk : pageKeep p.text <;> simp [hk]

theorem foldl_pageStep_empty (ps : List Page) (acc : List String × ExtractStats) :
    (ps.foldl pageStep acc).2.emptyPages
      = acc.2.emptyPages + ((ps.map Page.text).filter (fun t => !pageKeep t)).length := by
  induction ps generalizing acc with
  | nil => simp
  | cons p ps ih =>
    simp only [List.foldl_cons, List.map_cons, List.filter_cons]
    rw [ih, pageStep_empty]
    by_cases hk : pageKeep p.text
    · simp [hk]
    · simp [hk]
      omega

/-- **C6 (amended).** In the page loop of `extract_text_pymupdf`, a page
contributes its text to the joined output exactly when its text is
non-empty and has length strictly greater than 20 after stripping
leading and trailing whitespace (`len(text.strip()) > 20`); every other
page contributes nothing and is counted in `stats["empty_pages"]`. -/
theorem extract_page_loop_spec (ps : List Page) :
    (extractPages ps).1 = (ps.map Page.text).filter pageKeep
    ∧ (extractPages ps).2.emptyPages
        = ((ps.map Page.text).filter (fun t => !pageKeep t)).length
    ∧ extractJoin ps = dedupPageBreaks ((ps.map Page.text).filter pageKeep)
    ∧ (∀ t : String, pageKeep t = true ↔ t ≠ "" ∧ 20 < (pyStrip t).length) := by
  have h1 : (extractPages ps).1 = (ps.map Page.text).filter pageKeep := by
    simp only [extractPages]
    rw [foldl_pageStep_fst]
    simp
  refine ⟨h1, ?_, ?_, ?_⟩
  · simp only [extractPages]
    rw [foldl_pageStep_empty]
    simp
  · simp only [extractJoin, h1]
  · intro t
    simp only [pageKeep, Bool.and_eq_true, bne_iff_ne, ne_eq, decide_eq_true_eq]

/-- **C6 counterexample.** The claim reads the emptiness test as "fewer
than 20 non-whitespace characters".  A page of exactly 20 non-whitespace
characters has at least 20 of them, so under the claim it would be
included in the join; the code (`len(text.strip()) > 20`) counts it as
empty and drops its text. -/
theorem extract_page_loop_counterexample :
    nonWsCount "aaaaaaaaaaaaaaaaaaaa" = 20
    ∧ ¬ (nonWsCount "aaaaaaaaaaaaaaaaaaaa" < 20)
    ∧ (extractPages [⟨"aaaaaaaaaaaaaaaaaaaa", 0⟩]).1 = []
    ∧ (extractPages [⟨"aaaaaaaaaaaaaaaaaaaa", 0⟩]).2.emptyPages = 1 := by
  refine ⟨by decide, by decide, ?_, ?_⟩ <;> decide

theorem flatSpec_nil (pidx : Option Nat) (pre : String) (depth k : Nat) :
    flatSpec [] pidx pre depth k = [] := by
  rw [flatSpec]

theorem flatSpec_cons (n : Node) (rest : List Node) (pidx : Option Nat) (pre : String)
    (depth k : Nat) :
    flatSpec (n :: rest) pidx pre depth k
      = FlatEntry.mk n depth pidx (joinPath pre (pathSegment n.ntype n.number)) (k + 1) ::
          (flatSpec n.children (some k) (joinPath pre (pathSegment n.ntype n.number))
              (depth + 1) (k + 1)
            ++ flatSpec rest pidx pre depth
                (k + 1 + (flatSpec n.children (some k)
                    (joinPath pre (pathSegment n.ntype n.number)) (depth + 1) (k + 1)).length)) := by
  rw [flatSpec]

theorem flattenWalk_nil (pidx : Option Nat) (pre : String) (depth : Nat)
    (acc : List FlatEntry × Nat) :
    flattenWalk [] pidx pre depth acc = acc := by
  rw [flattenWalk]

theorem flattenWalk_cons (n : Node) (rest : List Node) (pidx : Option Nat) (pre : String)
    (depth : Nat) (acc : List FlatEntry × Nat) :
    flattenWalk (n :: rest) pidx pre depth acc
      = flattenWalk rest pidx pre depth
          (if n.children.isEmpty then
            (acc.1 ++ [⟨n, depth, pidx, joinPath pre (pathSegment n.ntype n.number), acc.2 + 1⟩],
             acc.2 + 1)
          else
            flattenWalk n.children (some acc.1.length)
              (joinPath pre (pathSegment n.ntype n.number)) (depth + 1)
              (acc.1 ++ [⟨n, depth, pidx, joinPath pre (pathSegment n.ntype n.number), acc.2 + 1⟩],
               acc.2 + 1)) := by
  rw [flattenWalk]

theorem flattenWalk_eq_flatSpec (ns : List Node) (pidx : Option Nat) (pre : String)
    (depth : Nat) (acc : List FlatEntry × Nat) (hc : acc.2 = acc.1.length) :
    flattenWalk ns pidx pre depth acc
      = (acc.1 ++ flatSpec ns pidx pre depth acc.1.length,
         acc.1.length + (flatSpec ns pidx pre depth acc.1.length).length) := by
  induction ns, pidx, pre, depth, acc using flattenWalk.induct with
  | case1 pidx pre depth acc =>
    rw [flattenWalk_nil, flatSpec_nil]
    simp
    exact Prod.ext (rfl) (by simpa using hc)
  | case2 pidx pre depth acc n rest ihc ihr =>
    rw [flattenWalk_cons, flatSpec_cons]
    by_cases hch : n.children.isEmpty
    · have hnil : n.children = [] := by simpa using hch
      rw [dif_pos hch] at ihr
      rw [if_pos hch]
      rw [ihr (by simp [hc])]
      simp only [hnil, flatSpec_nil, List.length_nil, List.nil_append, Nat.add_zero,
        Nat.zero_add, hc, List.length_append, List.length_cons, Prod.mk.injEq]
      constructor
      · simp [List.append_assoc]
      · omega
    · rw [dif_neg hch] at ihr
      rw [if_neg hch]
      have hcc := ihc hch (by simp [hc])
      rw [hcc] at ihr ⊢
      rw [ihr (by simp; omega)]
      simp only [hc, List.length_append, List.length_cons, List.length_nil, Nat.add_zero,
        Nat.zero_add, Prod.mk.injEq]
      constructor
      · simp [List.append_assoc]
      · omega

theorem flatSpec_props (ns : List Node) (pidx : Option Nat) (pre : String) (depth k : Nat) :
    ∀ (i : Nat) (e : FlatEntry), (flatSpec ns pidx pre depth k)[i]? = some e →
      e.sortOrder = k + 1 + i ∧
      ∀ p, e.parentIdx = some p →
        (e.depth = depth ∧ pidx = some p) ∨
        (k ≤ p ∧ p - k < i ∧ ∃ ep, (flatSpec ns pidx pre depth k)[p - k]? = some ep ∧
            ep.depth + 1 = e.depth) := by
  induction ns, pidx, pre, depth, k using flatSpec.induct with
  | case1 pidx pre depth k =>
    intro i e h
    rw [flatSpec_nil] at h
    simp at h
  | case2 pidx pre depth k n rest ihc ihr =>
    intro i e h
    rw [flatSpec_cons] at h ⊢
    set cs := flatSpec n.children (some k) (joinPath pre (pathSegment n.ntype n.number))
      (depth + 1) (k + 1) with hcsdef
    set R := flatSpec rest pidx pre depth (k + 1 + cs.length) with hRdef
    cases i with
    | zero =>
      rw [List.getElem?_cons_zero] at h
      have he : FlatEntry.mk n depth pidx
          (joinPath pre (pathSegment n.ntype n.number)) (k + 1) = e := Option.some.inj h
      subst he
      refine ⟨rfl, fun p hp => Or.inl ⟨rfl, hp⟩⟩
    | succ i' =>
      rw [List.getElem?_cons_succ] at h
      by_cases hlt : i' < cs.length
      · rw [List.getElem?_append_left hlt] at h
        obtain ⟨hso, hpar⟩ := ihc i' e h
        refine ⟨by omega, fun p hp => ?_⟩
        rcases hpar p hp with ⟨hdep, hpk⟩ | ⟨hkp, hlt2, ep, hep, hdep⟩
        · have hpkk : p = k := (Option.some.inj hpk).symm
          subst hpkk
          right
          refine ⟨Nat.le_refl _, by omega,
            FlatEntry.mk n depth pidx (joinPath pre (pathSegment n.ntype n.number)) (p + 1),
            ?_, ?_⟩
          · have hz : p - p = 0 := by omega
            rw [hz, List.getElem?_cons_zero]
          · rw [hdep]
        · right
          refine ⟨by omega, by omega, ep, ?_, hdep⟩
          have h1 : p - k = (p - (k + 1)) + 1 := by omega
          rw [h1, List.getElem?_cons_succ, List.getElem?_append_left (by omega)]
          exact hep
      · have hge : cs.length ≤ i' := by omega
        rw [List.getElem?_append_right hge] at h
        obtain ⟨hso, hpar⟩ := ihr (i' - cs.length) e h
        refine ⟨by omega, fun p hp => ?_⟩
        rcases hpar p hp with ⟨hdep, hpk⟩ | ⟨hkp, hlt2, ep, hep, hdep⟩
        · exact Or.inl ⟨hdep, hpk⟩
        · right
          refine ⟨by omega, by omega, ep, ?_, hdep⟩
          have h1 : p - k = (p - (k + 1 + cs.length) + cs.length) + 1 := by omega
          rw [h1, List.getElem?_cons_succ,
            List.getElem?_append_right (by omega : cs.length ≤ p - (k + 1 + cs.length) + cs.length)]
          have h2 : p - (k + 1 + cs.length) + cs.length - cs.length = p - (k + 1 + cs.length) := by
            omega
          rw [h2]
          exact hep

theorem flattenTree_eq_flatSpec (nodes : List Node) :
    flattenTree nodes = flatSpec nodes none "" 0 0 := by
  have h := flattenWalk_eq_flatSpec nodes none "" 0 ([], 0) rfl
  rw [flattenTree, h]
  simp

/-- **C2.** The flat node rows built by `_flatten_tree` — the rows that
`load_nodes_by_level` inserts, whose `sort_order` column is copied from
the flat entries — carry a dense ascending `sort_order` assigned by a
single DFS pre-order counter: entry `i` has `sort_order = i + 1`; the
parent of every entry appears strictly earlier with `depth` exactly one
less, so `sort_order(parent) < sort_order(node)`; and `sort_order` is
strictly increasing along the flat list, so each node's `sort_order` is
strictly below that of every later entry — in particular below its next
sibling and the next sibling of each of its ancestors, which the DFS
emits after the node. -/
theorem flattenTree_sort_order (nodes : List Node) :
    (∀ (i : Nat) (e : FlatEntry), (flattenTree nodes)[i]? = some e → e.sortOrder = i + 1)
    ∧ (∀ (i : Nat) (e : FlatEntry) (p : Nat), (flattenTree nodes)[i]? = some e →
        e.parentIdx = some p →
        p < i ∧ ∃ ep : FlatEntry, (flattenTree nodes)[p]? = some ep ∧ ep.depth + 1 = e.depth ∧
          ep.sortOrder < e.sortOrder)
    ∧ (∀ (i j : Nat) (e f : FlatEntry), (flattenTree nodes)[i]? = some e →
        (flattenTree nodes)[j]? = some f →
        i < j → e.sortOrder < f.sortOrder) := by
  have heq : flattenTree nodes = flatSpec nodes none "" 0 0 := flattenTree_eq_flatSpec nodes
  refine ⟨fun i e h => ?_, fun i e p h hp => ?_, fun i j e f hi hj hij => ?_⟩
  · rw [heq] at h
    have := (flatSpec_props nodes none "" 0 0 i e h).1
    omega
  · rw [heq] at h ⊢
    obtain ⟨hso, hpar⟩ := flatSpec_props nodes none "" 0 0 i e h
    rcases hpar p hp with ⟨_, hnone⟩ | ⟨_, hlt, ep, hep, hdep⟩
    · exact Option.noConfusion hnone
    · have hp0 : p - 0 = p := by omega
      rw [hp0] at hep hlt
      have hso2 := (flatSpec_props nodes none "" 0 0 p ep hep).1
      exact ⟨hlt, ep, hep, hdep, by omega⟩
  · rw [heq] at hi hj
    have h1 := (flatSpec_props nodes none "" 0 0 i e hi).1
    have h2 := (flatSpec_props nodes none "" 0 0 j f hj).1
    omega

/-- C2 witness: a bab node with one pasal child; the pasal entry (index 1,
`sort_order` 2) points at the bab entry (index 0, depth 0, `sort_order` 1). -/
theorem flattenTree_sort_order_witness :
    0 < 1 ∧ ∃ ep,
      (flattenTree [Node.mk "bab" "I" "H" "" [Node.mk "pasal" "1" "" "x" [] 0] 0])[0]?
        = some ep ∧ ep.depth + 1 = 1 ∧ ep.sortOrder < 2 := by
  have heval : flattenTree [Node.mk "bab" "I" "H" "" [Node.mk "pasal" "1" "" "x" [] 0] 0]
      = [FlatEntry.mk (Node.mk "bab" "I" "H" "" [Node.mk "pasal" "1" "" "x" [] 0] 0)
           0 none "bab_I" 1,
         FlatEntry.mk (Node.mk "pasal" "1" "" "x" [] 0) 1 (some 0) "bab_I.pasal_1" 2] := by
    rw [flattenTree_eq_flatSpec]
    rw [flatSpec_cons, flatSpec_cons, flatSpec_nil, flatSpec_nil, flatSpec_nil]
    simp [joinPath, pathSegment]
  exact (flattenTree_sort_order
      [Node.mk "bab" "I" "H" "" [Node.mk "pasal" "1" "" "x" [] 0] 0]).2.1
    1 (FlatEntry.mk (Node.mk "pasal" "1" "" "x" [] 0) 1 (some 0) "bab_I.pasal_1" 2) 0
    (by rw [heval]; rfl) rfl

/-- `statusOf` on a cons cell. -/
theorem statusOf_cons (j : QJob) (rest : List QJob) (id : Nat) :
    statusOf (j :: rest) id = if j.id = id then some j.status else statusOf rest id := by
  simp only [statusOf, List.find?_cons]
  by_cases hj : j.id = id
  · rw [if_pos hj, show (j.id == id) = true from beq_iff_eq.mpr hj]
    rfl
  · rw [if_neg hj, show (j.id == id) = false from beq_eq_false_iff_ne.mpr hj]

theorem claimJobs_ids (l : Nat) (s : List QJob) :
    (claimJobs l s).2.map QJob.id = s.map QJob.id := by
  induction l, s using claimJobs.induct with
  | case1 l => rw [claimJobs]
  | case2 j rest => rw [claimJobs]
  | case3 limit j rest hp ih =>
    rw [claimJobs, if_pos hp]
    simpa using ih
  | case4 limit j rest hp ih =>
    rw [claimJobs, if_neg hp]
    simpa using ih

theorem claimJobs_claimed_sub (l : Nat) (s : List QJob) :
    ∀ id, id ∈ (claimJobs l s).1.map QJob.id → id ∈ s.map QJob.id := by
  induction l, s using claimJobs.induct with
  | case1 l =>
    intro id h
    rw [claimJobs] at h
    simp at h
  | case2 j rest =>
    intro id h
    rw [claimJobs] at h
    simp at h
  | case3 limit j rest hp ih =>
    intro id h
    rw [claimJobs, if_pos hp] at h
    simp only [List.map_cons, List.mem_cons] at h ⊢
    rcases h with h | h
    · exact Or.inl h
    · exact Or.inr (ih id h)
  | case4 limit j rest hp ih =>
    intro id h
    rw [claimJobs, if_neg hp] at h
    simp only [List.map_cons, List.mem_cons]
    exact Or.inr (ih id h)

theorem claimJobs_claimed_pending (l : Nat) (s : List QJob)
    (hnd : (s.map QJob.id).Nodup) :
    ∀ id, id ∈ (claimJobs l s).1.map QJob.id → statusOf s id = some "pending" := by
  induction l, s using claimJobs.induct with
  | case1 l =>
    intro id h
    rw [claimJobs] at h
    simp at h
  | case2 j rest =>
    intro id h
    rw [claimJobs] at h
    simp at h
  | case3 limit j rest hp ih =>
    intro id h
    rw [claimJobs, if_pos hp] at h
    simp only [List.map_cons, List.mem_cons] at h
    simp only [List.map_cons, List.nodup_cons] at hnd
    rcases h with h | h
    · subst h
      rw [statusOf_cons, if_pos rfl, hp]
    · by_cases hj : j.id = id
      · rw [hj] at hnd
        exact absurd (claimJobs_claimed_sub _ _ _ h) hnd.1
      · rw [statusOf_cons, if_neg hj]
        exact ih hnd.2 id h
  | case4 limit j rest hp ih =>
    intro id h
    rw [claimJobs, if_neg hp] at h
    simp only [List.map_cons, List.nodup_cons] at hnd
    by_cases hj : j.id = id
    · rw [hj] at hnd
      exact absurd (claimJobs_claimed_sub _ _ _ h) hnd.1
    · rw [statusOf_cons, if_neg hj]
      exact ih hnd.2 id h

/-- Effect of one atomic claim on the status of each row: claimed rows
become `crawling`, every other row keeps its status. -/
theorem claimJobs_status (l : Nat) (s : List QJob) (hnd : (s.map QJob.id).Nodup) :
    ∀ id, statusOf (claimJobs l s).2 id
      = if id ∈ (claimJobs l s).1.map QJob.id then some "crawling" else statusOf s id := by
  induction l, s using claimJobs.induct with
  | case1 l =>
    intro id
    rw [claimJobs]
    simp
  | case2 j rest =>
    intro id
    rw [claimJobs]
    simp
  | case3 limit j rest hp ih =>
    intro id
    rw [claimJobs, if_pos hp]
    simp only [List.map_cons, List.nodup_cons] at hnd
    by_cases hj : j.id = id
    · subst hj
      rw [statusOf_cons]
      simp
    · rw [statusOf_cons, if_neg hj, statusOf_cons j]
      rw [if_neg hj]
      have heq := ih hnd.2 id
      rw [heq]
      simp only [List.map_cons, List.mem_cons]
      by_cases hm : id ∈ (claimJobs limit rest).1.map QJob.id
      · rw [if_pos hm, if_pos (Or.inr hm)]
      · rw [if_neg hm, if_neg ?hh]
        case hh =>
          intro hcon
          rcases hcon with hcon | hcon
          · exact hj hcon.symm
          · exact hm hcon
  | case4 limit j rest hp ih =>
    intro id
    rw [claimJobs, if_neg hp]
    simp only [List.map_cons, List.nodup_cons] at hnd
    by_cases hj : j.id = id
    · have hnc : ¬ id ∈ (claimJobs (limit + 1) rest).1.map QJob.id := by
        intro hcon
        rw [hj] at hnd
        exact hnd.1 (claimJobs_claimed_sub _ _ _ hcon)
      rw [if_neg hnc, statusOf_cons, if_pos hj, statusOf_cons, if_pos hj]
    · rw [statusOf_cons, if_neg hj, statusOf_cons j, if_neg hj]
      exact ih hnd.2 id

theorem claimJobs_nodup (l : Nat) (s : List QJob) (hnd : (s.map QJob.id).Nodup) :
    ((claimJobs l s).2.map QJob.id).Nodup := by
  rw [claimJobs_ids]
  exact hnd

theorem runClaims_crawling_stable (ls : List Nat) :
    ∀ (s : List QJob) (id : Nat), (s.map QJob.id).Nodup →
      statusOf s id = some "crawling" →
      statusOf (runClaims ls s).2 id = some "crawling" := by
  induction ls with
  | nil =>
    intro s id _ h
    exact h
  | cons l ls ih =>
    intro s id hnd h
    simp only [runClaims]
    refine ih _ _ (claimJobs_nodup l s hnd) ?_
    rw [claimJobs_status l s hnd id]
    by_cases hm : id ∈ (claimJobs l s).1.map QJob.id
    · rw [if_pos hm]
    · rw [if_neg hm]
      exact h

/-- **C1 (spec-modelled).** For any interleaving of atomic `claim_jobs`
calls (one per entry of `ls`) over a job table with distinct row ids, the
returned batches are pairwise disjoint — no two callers ever receive
rows with a common id — and their union is exactly the set of claimed
rows: a row id is returned to some caller if and only if it was
`pending` before the calls and is `crawling` after them. -/
theorem runClaims_disjoint_spec (ls : List Nat) :
    ∀ s : List QJob, (s.map QJob.id).Nodup →
      ((runClaims ls s).1.Pairwise
        fun b₁ b₂ => ∀ id : Nat, id ∈ b₁.map QJob.id → id ∉ b₂.map QJob.id)
      ∧ (∀ id : Nat, (∃ b ∈ (runClaims ls s).1, id ∈ b.map QJob.id) ↔
          (statusOf s id = some "pending"
            ∧ statusOf (runClaims ls s).2 id = some "crawling")) := by
  induction ls with
  | nil =>
    intro s hnd
    constructor
    · simp [runClaims]
    · intro id
      simp only [runClaims]
      constructor
      · rintro ⟨b, hb, _⟩
        exact absurd hb (List.not_mem_nil b)
      · rintro ⟨hp, hc⟩
        rw [hp] at hc
        exact absurd (Option.some.inj hc) (by decide)
  | cons l ls ih =>
    intro s hnd
    have hnd1 := claimJobs_nodup l s hnd
    obtain ⟨ihp, ihu⟩ := ih (claimJobs l s).2 hnd1
    constructor
    · simp only [runClaims, List.pairwise_cons]
      refine ⟨?_, ihp⟩
      intro b hb id hid1 hid2
      have hcr : statusOf (claimJobs l s).2 id = some "crawling" := by
        rw [claimJobs_status l s hnd id, if_pos hid1]
      have hpend : statusOf (claimJobs l s).2 id = some "pending" :=
        ((ihu id).mp ⟨b, hb, hid2⟩).1
      rw [hcr] at hpend
      exact absurd (Option.some.inj hpend) (by decide)
    · intro id
      simp only [runClaims, List.mem_cons]
      constructor
      · rintro ⟨b, hb | hb, hid⟩
        · subst hb
          have hp : statusOf s id = some "pending" :=
            claimJobs_claimed_pending l s hnd id hid

          have hcr : statusOf (claimJobs l s).2 id = some "crawling" := by
            rw [claimJobs_status l s hnd id, if_pos hid]
          exact ⟨hp, runClaims_crawling_stable ls _ id hnd1 hcr⟩
        · obtain ⟨hp1, hcf⟩ := (ihu id).mp ⟨b, hb, hid⟩
          refine ⟨?_, hcf⟩
          rw [claimJobs_status l s hnd id] at hp1
          by_cases hm : id ∈ (claimJobs l s).1.map QJob.id
          · rw [if_pos hm] at hp1
            exact absurd (Option.some.inj hp1) (by decide)
          · rw [if_neg hm] at hp1
            exact hp1
      · rintro ⟨hp, hcf⟩
        by_cases hm : id ∈ (claimJobs l s).1.map QJob.id
        · obtain ⟨j, hj, hjid⟩ := List.mem_map.mp hm
          exact ⟨(claimJobs l s).1, Or.inl rfl, hm⟩
        · have hp1 : statusOf (claimJobs l s).2 id = some "pending" := by
            rw [claimJobs_status l s hnd id, if_neg hm]
            exact hp
          obtain ⟨b, hb, hid⟩ := (ihu id).mpr ⟨hp1, hcf⟩
          exact ⟨b, Or.inr hb, hid⟩

/-- C1 witness: three pending rows, two concurrent callers with limit 2;
row 1 is claimed by exactly one caller, and the batches are disjoint. -/
theorem runClaims_disjoint_spec_witness :
    ((runClaims [2, 2] [⟨1, "pending"⟩, ⟨2, "pending"⟩, ⟨3, "pending"⟩]).1.Pairwise
      fun b₁ b₂ => ∀ id : Nat, id ∈ b₁.map QJob.id → id ∉ b₂.map QJob.id)
    ∧ ((∃ b ∈ (runClaims [2, 2] [⟨1, "pending"⟩, ⟨2, "pending"⟩, ⟨3, "pending"⟩]).1,
        (1 : Nat) ∈ b.map QJob.id) ↔
      (statusOf [⟨1, "pending"⟩, ⟨2, "pending"⟩, ⟨3, "pending"⟩] 1 = some "pending"
        ∧ statusOf (runClaims [2, 2]
            [⟨1, "pending"⟩, ⟨2, "pending"⟩, ⟨3, "pending"⟩]).2 1 = some "crawling")) := by
  obtain ⟨h1, h2⟩ := runClaims_disjoint_spec [2, 2]
    [⟨1, "pending"⟩, ⟨2, "pending"⟩, ⟨3, "pending"⟩] (by decide)
  exact ⟨h1, h2 1⟩

/-- **C10.** `create_chunks` emits no chunk for a node whose stripped
content is shorter than 10 characters, and none for a
`penjelasan_umum`/`penjelasan_pasal` node whose stripped content starts
(case-insensitively) with "cukup jelas"; every other node yields exactly
one chunk, whose text begins with the work's title.  The resulting list
is the per-node chunks in order (with the full-text fallback only when
no per-node chunk was produced). -/
theorem create_chunks_spec (workId : Nat) (law : Law) (ps : List PasalRec) :
    (createChunks workId law ps = ps.filterMap (emitChunk workId law)
      ∨ (ps.filterMap (emitChunk workId law) = []
          ∧ createChunks workId law ps = fallbackChunks workId law))
    ∧ (∀ p : PasalRec, (pyStrip p.content).length < 10 → emitChunk workId law p = none)
    ∧ (∀ p : PasalRec,
        (p.nodeType = "penjelasan_umum" ∨ p.nodeType = "penjelasan_pasal") →
        cukupJelas p.content = true →
        emitChunk workId law p = none)
    ∧ (∀ p : PasalRec, ¬ (pyStrip p.content).length < 10 →
        ¬ ((p.nodeType = "penjelasan_umum" ∨ p.nodeType = "penjelasan_pasal")
            ∧ cukupJelas p.content = true) →
        ∃ c rest, emitChunk workId law p = some c ∧ c.content = law.titleId ++ rest) := by
  refine ⟨?_, fun p hshort => ?_, fun p htype hcj => ?_, fun p hlong hnskip => ?_⟩
  · by_cases he : (ps.filterMap (emitChunk workId law)).isEmpty
    · right
      refine ⟨List.isEmpty_iff.mp he, ?_⟩
      simp [createChunks, List.isEmpty_iff.mp he]
    · left
      simp only [createChunks, he, Bool.false_eq_true, if_false]
  · have : p.content = "" ∨ (pyStrip p.content).length < 10 := Or.inr hshort
    simp only [emitChunk, this, if_pos]
  · have hns : ¬ (p.content = "" ∨ (pyStrip p.content).length < 10) := by
      intro hcon
      rcases hcon with hcon | hcon
      · rw [hcon] at hcj
        simp [cukupJelas, pyStripL, lowerL] at hcj
      · -- a "cukup jelas" prefix needs at least 11 characters
        have hlen : 11 ≤ (lowerL (pyStripL p.content.data)).length := by
          have := (List.isPrefixOf_iff_prefix.mp hcj).length_le
          simpa using this
        have hll : (lowerL (pyStripL p.content.data)).length
            = (pyStripL p.content.data).length := by
          simp [lowerL]
        simp only [pyStrip, String.length] at hcon
        omega
    rw [emitChunk, if_neg hns, if_pos htype, if_pos hcj]
  · have hns : ¬ (p.content = "" ∨ (pyStrip p.content).length < 10) := by
      intro hcon
      rcases hcon with hcon | hcon
      · rw [hcon] at hlong
        exact hlong (by simp [pyStrip, pyStripL])
      · exact hlong hcon
    rw [emitChunk, if_neg hns]
    by_cases htype : p.nodeType = "penjelasan_umum" ∨ p.nodeType = "penjelasan_pasal"
    · rw [if_pos htype]
      have hcj : ¬ cukupJelas p.content = true := fun hcon => hnskip ⟨htype, hcon⟩
      rw [if_neg (by simpa using hcj)]
      by_cases hnum : p.number ≠ ""
      · rw [if_pos hnum]
        exact ⟨_, "\nPenjelasan Pasal " ++ p.number ++ "\n\n" ++ p.content, rfl,
          by simp [String.append_assoc]⟩
      · rw [if_neg hnum]
        exact ⟨_, "\nPenjelasan Umum\n\n" ++ p.content, rfl, by simp [String.append_assoc]⟩
    · rw [if_neg htype]
      by_cases hsec : p.nodeType = "preamble" ∨ p.nodeType = "content" ∨ p.nodeType = "aturan"
      · rw [if_pos hsec]
        by_cases hhd : p.heading ≠ ""
        · rw [if_pos hhd]
          exact ⟨_, "\n" ++ p.heading ++ "\n\n" ++ p.content, rfl,
            by simp [String.append_assoc]⟩
        · rw [if_neg hhd]
          exact ⟨_, "\n\n" ++ p.content, rfl, by simp [String.append_assoc]⟩
      · rw [if_neg hsec]
        exact ⟨_, "\nPasal " ++ p.number ++ "\n\n" ++ p.content, rfl,
          by simp [String.append_assoc]⟩

/-- C10 witness: an ordinary pasal record with content of at least 10
stripped characters yields one chunk beginning with the work's title. -/
theorem create_chunks_spec_witness :
    ∃ c rest,
      emitChunk 7 ⟨"/akn/id/act/uu/2003/13", "UU", "13", 2003, "UU 13/2003", ""⟩
        ⟨5, "1", "Isi pasal yang cukup panjang.", "", "", "pasal"⟩ = some c
      ∧ c.content = "UU 13/2003" ++ rest :=
  (create_chunks_spec 7 ⟨"/akn/id/act/uu/2003/13", "UU", "13", 2003, "UU 13/2003", ""⟩
    []).2.2.2 ⟨5, "1", "Isi pasal yang cukup panjang.", "", "", "pasal"⟩
    (by decide) (by decide)

/-- **C9.** A `UU` listing page holding one anchor `/id/uu-no-13-tahun-2003`
with text "Ketenagakerjaan" yields exactly one pending job record with
type `UU`, number `13`, year `2003`, FRBR URI `/akn/id/act/uu/2003/13`
and the formal title. -/
theorem discover_uu13_2003 :
    extractRegulationsFromPage [⟨"/id/uu-no-13-tahun-2003", "Ketenagakerjaan", none⟩] "UU"
      = [{ sourceId := "peraturan_go_id",
           url := "https://peraturan.go.id/id/uu-no-13-tahun-2003",
           pdfUrl := none,
           regulationType := "UU",
           number := "13",
           year := 2003,
           title := "Undang-Undang Nomor 13 Tahun 2003 tentang Ketenagakerjaan",
           status := "pending",
           frbrUri := "/akn/id/act/uu/2003/13" }] := by
  decide

/-- **C8 (code bug).** `correct_ocr_errors` is not idempotent: on
`"Pasal\u00A0l"` (a non-breaking space between `Pasal` and a lowercase
`l`, the very artifact the NBSP pattern exists to normalise), the first
pass only rewrites the NBSP to a plain space — the `Pasal l` pattern
uses `[ \t]+` and does not see the NBSP — and the second pass then
rewrites the now-visible `Pasal l` line to `Pasal 1`, so applying the
function twice differs from applying it once. -/
theorem correct_ocr_errors_not_idempotent :
    correctOcrErrors "Pasal\u00A0l" = "Pasal l"
    ∧ correctOcrErrors (correctOcrErrors "Pasal\u00A0l") = "Pasal 1"
    ∧ correctOcrErrors (correctOcrErrors "Pasal\u00A0l")
        ≠ correctOcrErrors "Pasal\u00A0l" := by
  refine ⟨by decide, by decide, by decide⟩

/-- **C5 counterexample.** On `"Pasal I\n\n\nX"` (no amendment header, no
ATURAN PERALIHAN) the rewrite does not leave "all other characters
unchanged": the greedy `\s*$` of `_ROMAN_PASAL_RE` absorbs the blank
lines after the marker, so two newline characters outside the marker
line are deleted. -/
theorem fix_roman_pasals_counterexample :
    isAmendmentLaw "Pasal I\n\n\nX".data = false
    ∧ findAturanStart "Pasal I\n\n\nX".data = none
    ∧ fixRomanPasals "Pasal I\n\n\nX" = "Pasal 1\nX"
    ∧ fixRomanPasals "Pasal I\n\n\nX" ≠ "Pasal 1\n\n\nX" := by
  refine ⟨by decide, by decide, by decide, by decide⟩

/-! ### Line-level characterisation of the Roman-Pasal rewrite -/

theorem takeWhile_append_all {p : Char → Bool} (a b : List Char) (h : a.all p) :
    (a ++ b).takeWhile p = a ++ b.takeWhile p := by
  induction a with
  | nil => simp
  | cons c cs ih =>
    simp only [List.all_cons, Bool.and_eq_true] at h
    simp [List.takeWhile_cons, h.1, ih h.2]

theorem takeWhile_append_stop {p : Char → Bool} (a b : List Char) (c : Char)
    (hc : c ∈ a) (hnp : ¬ p c = true) :
    (a ++ b).takeWhile p = a.takeWhile p := by
  induction a with
  | nil => simp at hc
  | cons d ds ih =>
    by_cases hd : p d
    · simp only [List.cons_append, List.takeWhile_cons, hd]
      rcases List.mem_cons.mp hc with h | h
      · subst h
        exact absurd hd hnp
      · rw [ih h]
    · have hd' : p d = false := Bool.eq_false_iff.mpr hd
      simp [List.takeWhile_cons, hd']

theorem dropWhile_append_stop {p : Char → Bool} (a b : List Char) (c : Char)
    (hc : c ∈ a) (hnp : ¬ p c = true) :
    (a ++ b).dropWhile p = a.dropWhile p ++ b ∧ a.dropWhile p ≠ [] := by
  induction a with
  | nil => simp at hc
  | cons d ds ih =>
    by_cases hd : p d
    · simp only [List.cons_append, List.dropWhile_cons, hd, if_pos]
      rcases List.mem_cons.mp hc with h | h
      · subst h
        exact absurd hd hnp
      · exact ih h
    · have hd' : p d = false := Bool.eq_false_iff.mpr hd
      simp [List.dropWhile_cons, hd']

theorem dropPre_append_some (pat x : List Char) :
    dropPre pat (pat ++ x) = some x := by
  rw [dropPre, if_pos (List.isPrefixOf_iff_prefix.mpr (List.prefix_append pat x))]
  rw [List.drop_left]

theorem dropPre_eq_some (pat l r : List Char) (h : dropPre pat l = some r) :
    l = pat ++ r := by
  rw [dropPre] at h
  by_cases hp : pat.isPrefixOf l
  · rw [if_pos hp] at h
    have h2 : l.take pat.length = pat :=
      (List.prefix_iff_eq_take.mp (List.isPrefixOf_iff_prefix.mp hp)).symm
    have h3 := Option.some.inj h
    calc l = l.take pat.length ++ l.drop pat.length := (List.take_append_drop _ _).symm
    _ = pat ++ r := by rw [h2, h3]
  · rw [if_neg hp] at h
    exact absurd h (by simp)

theorem dropPre_none_append (pat L r : List Char) (hpat : '\n' ∉ pat)
    (hd : dropPre pat L = none) (hr : r = [] ∨ ∃ t, r = '\n' :: t) :
    dropPre pat (L ++ r) = none := by
  have hnp : ¬ pat.isPrefixOf L = true := by
    intro hcon
    rw [dropPre, if_pos hcon] at hd
    exact absurd hd (by simp)
  rw [dropPre]
  rw [if_neg ?hh]
  case hh =>
    intro hcon
    apply hnp
    have hpre := List.isPrefixOf_iff_prefix.mp hcon
    have htake : (L ++ r).take pat.length = pat := (List.prefix_iff_eq_take.mp hpre).symm
    by_cases hlen : pat.length ≤ L.length
    · rw [List.take_append_of_le_length hlen] at htake
      exact List.isPrefixOf_iff_prefix.mpr (List.prefix_iff_eq_take.mpr htake.symm)
    · exfalso
      push_neg at hlen
      rcases hr with hr | ⟨t, hr⟩
      · subst hr
        simp only [List.append_nil] at htake
        have hpl : pat <+: L := List.prefix_iff_eq_take.mpr htake.symm
        have := hpl.length_le
        omega
      · subst hr
        have hsplit : (L ++ '\n' :: t).take pat.length
            = L ++ ('\n' :: t).take (pat.length - L.length) := by
          have h1 := @List.take_append Char L ('\n' :: t) (pat.length - L.length)
          rw [show L.length + (pat.length - L.length) = pat.length by omega] at h1
          exact h1
        rw [hsplit] at htake
        have hmem : '\n' ∈ pat := by
          rw [← htake]
          refine List.mem_append.mpr (Or.inr ?_)
          rw [show pat.length - L.length = (pat.length - L.length - 1) + 1 by omega]
          rw [List.take_succ_cons]
          exact List.mem_cons_self _ _
        exact hpat hmem

theorem roman_not_sep {c : Char} (h : isRomanChar c = true) : isSepTab c = false := by
  simp only [isRomanChar, Bool.or_eq_true, beq_iff_eq] at h
  rcases h with ((((((h|h)|h)|h)|h)|h)|h) <;> subst h <;> decide

theorem roman_not_ws {c : Char} (h : isRomanChar c = true) : isPySpace c = false := by
  simp only [isRomanChar, Bool.or_eq_true, beq_iff_eq] at h
  rcases h with ((((((h|h)|h)|h)|h)|h)|h) <;> subst h <;> decide

theorem sep_is_ws {c : Char} (h : isSepTab c = true) : isPySpace c = true := by
  simp only [isSepTab, Bool.or_eq_true, beq_iff_eq] at h
  rcases h with h|h <;> subst h <;> decide

theorem newline_not_sep : isSepTab '\n' = false := by decide

theorem newline_not_roman : isRomanChar '\n' = false := by decide

theorem takeWhile_all_eq {p : Char → Bool} (l : List Char) (h : l.all p) :
    l.takeWhile p = l := by
  have := takeWhile_append_all l [] h
  simpa using this

theorem takeWhile_lt_of_not_all {p : Char → Bool} (l : List Char) (h : ¬ l.all p = true) :
    (l.takeWhile p).length < l.length := by
  induction l with
  | nil => simp at h
  | cons c cs ih =>
    by_cases hc : p c
    · simp only [List.all_cons, hc, Bool.true_and] at h
      simp only [List.takeWhile_cons, hc, if_pos, List.length_cons]
      have := ih h
      omega
    · have hc' : p c = false := Bool.eq_false_iff.mpr hc
      simp [List.takeWhile_cons, hc']

theorem mem_of_mem_takeWhile {p : Char → Bool} {l : List Char} {c : Char}
    (h : c ∈ l.takeWhile p) : c ∈ l := by
  exact (List.takeWhile_prefix p).subset h

theorem findIdx?_append_none (p : Char → Bool) (a b : List Char)
    (h : a.findIdx? p = none) :
    (a ++ b).findIdx? p = (b.findIdx? p).map (· + a.length) := by
  rw [List.findIdx?_append, h, Option.none_or]

theorem lastNewlineIdx_append (A B : List Char) (hB : '\n' ∉ B) :
    lastNewlineIdx (A ++ '\n' :: B) = some A.length := by
  unfold lastNewlineIdx
  have hrev : (A ++ '\n' :: B).reverse = B.reverse ++ '\n' :: A.reverse := by
    simp
  rw [hrev]
  have hnone : B.reverse.findIdx? (· == '\n') = none := by
    rw [List.findIdx?_eq_none_iff]
    intro x hx
    have : x ∈ B := List.mem_reverse.mp hx
    simp only [beq_eq_false_iff_ne, ne_eq]
    intro hxe
    subst hxe
    exact hB this
  rw [findIdx?_append_none _ _ _ hnone]
  rw [List.findIdx?_cons]
  simp only [beq_self_eq_true, if_pos]
  simp

theorem lineMarkerRoman_decomp (L g : List Char) (h : lineMarkerRoman L = some g) :
    ∃ sp tail2, L = "Pasal".data ++ sp ++ g ++ tail2
      ∧ sp ≠ [] ∧ sp.all isSepTab
      ∧ g ≠ [] ∧ g.all isRomanChar
      ∧ tail2.all isPySpace := by
  unfold lineMarkerRoman at h
  cases hP : dropPre "Pasal".data L with
  | none => rw [hP] at h; dsimp only at h; exact absurd h (by simp)
  | some r1 =>
    rw [hP] at h
    dsimp only at h
    by_cases hspe : (r1.takeWhile isSepTab).isEmpty
    · rw [if_pos hspe] at h
      exact absurd h (by simp)
    · rw [if_neg hspe] at h
      by_cases hge : ((r1.drop (r1.takeWhile isSepTab).length).takeWhile isRomanChar).isEmpty
      · rw [if_pos hge] at h
        exact absurd h (by simp)
      · rw [if_neg hge] at h
        by_cases hta : ((r1.drop (r1.takeWhile isSepTab).length).drop
            ((r1.drop (r1.takeWhile isSepTab).length).takeWhile isRomanChar).length).all isPySpace
        · rw [if_pos hta] at h
          have hg : (r1.drop (r1.takeWhile isSepTab).length).takeWhile isRomanChar = g :=
            Option.some.inj h
          refine ⟨r1.takeWhile isSepTab,
            (r1.drop (r1.takeWhile isSepTab).length).drop g.length, ?_, ?_, ?_, ?_, ?_, ?_⟩
          · have hL : L = "Pasal".data ++ r1 := dropPre_eq_some _ _ _ hP
            have hr1 : r1 = r1.takeWhile isSepTab ++ r1.drop (r1.takeWhile isSepTab).length := by
              have hpre : r1.takeWhile isSepTab <+: r1 := List.takeWhile_prefix _
              have := List.prefix_iff_eq_take.mp hpre
              conv_lhs => rw [← List.take_append_drop (r1.takeWhile isSepTab).length r1]
              rw [← this]
            have hr2 : r1.drop (r1.takeWhile isSepTab).length
                = g ++ (r1.drop (r1.takeWhile isSepTab).length).drop g.length := by
              have hpre : (r1.drop (r1.takeWhile isSepTab).length).takeWhile isRomanChar
                  <+: r1.drop (r1.takeWhile isSepTab).length := List.takeWhile_prefix _
              rw [hg] at hpre
              have := List.prefix_iff_eq_take.mp hpre
              conv_lhs => rw [← List.take_append_drop g.length
                (r1.drop (r1.takeWhile isSepTab).length)]
              rw [← this]
            rw [hL]
            conv_lhs => rw [hr1, hr2]
            simp [List.append_assoc]
          · intro hcon
            rw [hcon] at hspe
            exact hspe rfl
          · exact List.all_takeWhile
          · intro hcon
            rw [hg, hcon] at hge
            exact hge rfl
          · rw [← hg]
            exact List.all_takeWhile
          · rw [← hg]
            exact hta
        · rw [if_neg hta] at h
          exact absurd h (by simp)

theorem lineSubRun_nil (tryM : List Char → Option (Nat × List Char))
    (emit : List Char → List Char → List Char) (fuel : Nat) (b : Bool) :
    lineSubRun tryM emit fuel b [] = [] := by
  cases fuel <;> rfl

theorem lineSubRun_succ_true (tryM : List Char → Option (Nat × List Char))
    (emit : List Char → List Char → List Char) (fuel : Nat) (c : Char) (cs : List Char) :
    lineSubRun tryM emit (fuel + 1) true (c :: cs) =
      (match tryM (c :: cs) with
       | some (n, g) =>
         match n with
         | 0 => c :: lineSubRun tryM emit fuel (c == '\n') cs
         | n + 1 =>
           emit ((c :: cs).take (n + 1)) g
             ++ lineSubRun tryM emit fuel
                 (((c :: cs).take (n + 1)).getLast? == some '\n') (cs.drop n)
       | none => c :: lineSubRun tryM emit fuel (c == '\n') cs) := rfl

theorem lineSubRun_succ_false (tryM : List Char → Option (Nat × List Char))
    (emit : List Char → List Char → List Char) (fuel : Nat) (c : Char) (cs : List Char) :
    lineSubRun tryM emit (fuel + 1) false (c :: cs)
      = c :: lineSubRun tryM emit fuel (c == '\n') cs := rfl

/-- Off a line start the scanner copies a newline-free suffix verbatim. -/
theorem passFalse_last (tryM : List Char → Option (Nat × List Char))
    (emit : List Char → List Char → List Char) :
    ∀ (M : List Char) (fuel : Nat), '\n' ∉ M →
      lineSubRun tryM emit fuel false M = M := by
  intro M
  induction M with
  | nil => intro fuel _; exact lineSubRun_nil tryM emit fuel false
  | cons c cs ih =>
    intro fuel hnl
    cases fuel with
    | zero => rfl
    | succ f =>
      rw [lineSubRun_succ_false]
      have hc : (c == '\n') = false :=
        beq_eq_false_iff_ne.mpr (fun he => hnl (he ▸ List.mem_cons_self c cs))
      rw [hc, ih f (fun hm => hnl (List.mem_cons_of_mem c hm))]

/-- Off a line start the scanner copies a newline-free block and the
newline after it verbatim, and resumes at a line start. -/
theorem passFalse (tryM : List Char → Option (Nat × List Char))
    (emit : List Char → List Char → List Char) :
    ∀ (M t : List Char) (fuel : Nat), '\n' ∉ M →
      lineSubRun tryM emit (M.length + 1 + fuel) false (M ++ '\n' :: t)
        = M ++ '\n' :: lineSubRun tryM emit fuel true t := by
  intro M
  induction M with
  | nil =>
    intro t fuel _
    rw [show ([] : List Char).length + 1 + fuel = fuel + 1 by simp [Nat.add_comm]]
    rw [List.nil_append, lineSubRun_succ_false]
    rw [show ('\n' == '\n') = true by decide]
    rw [List.nil_append]
  | cons c cs ih =>
    intro t fuel hnl
    rw [show (c :: cs).length + 1 + fuel = (cs.length + 1 + fuel) + 1 by simp [List.length_cons]; omega]
    rw [List.cons_append, lineSubRun_succ_false]
    have hc : (c == '\n') = false :=
      beq_eq_false_iff_ne.mpr (fun he => hnl (he ▸ List.mem_cons_self c cs))
    rw [hc, ih t fuel (fun hm => hnl (List.mem_cons_of_mem c hm))]
    rw [List.cons_append]

theorem takeWhile_append_drop2 (p : Char → Bool) (l : List Char) :
    l.takeWhile p ++ l.drop (l.takeWhile p).length = l := by
  have hpre : l.takeWhile p <+: l := List.takeWhile_prefix _
  have ht := List.prefix_iff_eq_take.mp hpre
  conv_rhs => rw [← List.take_append_drop (l.takeWhile p).length l]
  rw [← ht]

theorem takeWhile_drop_nil (p : Char → Bool) (l : List Char) :
    (l.drop (l.takeWhile p).length).takeWhile p = [] := by
  induction l with
  | nil => simp
  | cons c cs ih =>
    by_cases hc : p c
    · simp only [List.takeWhile_cons, hc, if_pos, List.length_cons, List.drop_succ_cons]
      exact ih
    · have hc' : p c = false := Bool.eq_false_iff.mpr hc
      simp [List.takeWhile_cons, hc']

theorem takeWhile_nil_append {p : Char → Bool} {a b : List Char}
    (ha : a.takeWhile p = []) (hb : b.takeWhile p = []) :
    (a ++ b).takeWhile p = [] := by
  cases a with
  | nil => simpa using hb
  | cons c cs =>
    by_cases hc : p c
    · rw [List.takeWhile_cons, if_pos hc] at ha
      exact absurd ha (by simp)
    · have hc' : p c = false := Bool.eq_false_iff.mpr hc
      simp [List.takeWhile_cons, hc']

theorem takeWhile_r_nil {p : Char → Bool} (hn : p '\n' = false) (r : List Char)
    (hr : r = [] ∨ ∃ t, r = '\n' :: t) : r.takeWhile p = [] := by
  rcases hr with hr | ⟨t, hr⟩
  · subst hr; rfl
  · subst hr; simp [List.takeWhile_cons, hn]

theorem takeWhile_roman_ws {l : List Char} (h : l.all isPySpace = true) :
    l.takeWhile isRomanChar = [] := by
  cases l with
  | nil => rfl
  | cons c cs =>
    have hc : isPySpace c = true := by
      rw [List.all_cons, Bool.and_eq_true] at h
      exact h.1
    have hcr : isRomanChar c = false := by
      cases hrc : isRomanChar c
      · rfl
      · rw [roman_not_ws hrc] at hc
        exact absurd hc (by simp)
    simp [List.takeWhile_cons, hcr]

theorem getLast_beq_newline {L : List Char} (h : '\n' ∉ L) :
    (L.getLast? == some '\n') = false := by
  cases hx : L.getLast? with
  | none => rfl
  | some x =>
    have hmem : x ∈ L := List.mem_of_mem_getLast? hx
    have hne : x ≠ '\n' := fun he => h (he ▸ hmem)
    have : (some x == some '\n') = (x == '\n') := rfl
    rw [this]
    exact beq_eq_false_iff_ne.mpr hne

/-- Evaluation of the `_ROMAN_PASAL_RE` matcher on a decomposed match:
keyword, separators, Roman group, then a tail whose `\s*$` consumption is
given by `tailWsEnd`. -/
theorem tryRomanPasal_core (sp g tail2 r : List Char) (k : Nat)
    (hspne : sp.isEmpty = false) (hspall : sp.all isSepTab = true)
    (hgne : g.isEmpty = false) (hgall : g.all isRomanChar = true)
    (hro : (tail2 ++ r).takeWhile isRomanChar = [])
    (hwe : tailWsEnd (tail2 ++ r) = some k) :
    tryRomanPasal ("Pasal".data ++ (sp ++ (g ++ (tail2 ++ r))))
      = some (("Pasal".data).length + sp.length + g.length + k, g) := by
  have hgne' : g ≠ [] := List.isEmpty_eq_false.mp hgne
  obtain ⟨gh, gt, hg⟩ : ∃ gh gt, g = gh :: gt := by
    cases g with
    | nil => exact absurd rfl hgne'
    | cons gh gt => exact ⟨gh, gt, rfl⟩
  have hghr : isRomanChar gh = true := by
    rw [hg, List.all_cons, Bool.and_eq_true] at hgall
    exact hgall.1
  have hsp' : (sp ++ (g ++ (tail2 ++ r))).takeWhile isSepTab = sp := by
    rw [takeWhile_append_all sp _ hspall]
    have h0 : (g ++ (tail2 ++ r)).takeWhile isSepTab = [] := by
      rw [hg, List.cons_append, List.takeWhile_cons, roman_not_sep hghr]
      simp
    rw [h0, List.append_nil]
  have hspc : ¬ sp.isEmpty = true := by
    rw [hspne]
    exact Bool.false_ne_true
  have hgc : ¬ g.isEmpty = true := by
    rw [hgne]
    exact Bool.false_ne_true
  have hg' : (g ++ (tail2 ++ r)).takeWhile isRomanChar = g := by
    rw [takeWhile_append_all g _ hgall, hro, List.append_nil]
  have hbody : bodyRoman (g ++ (tail2 ++ r)) = some (g, tail2 ++ r) := by
    unfold bodyRoman
    dsimp only
    rw [hg', if_neg hgc, List.drop_left]
  unfold tryRomanPasal tryLineMarker
  rw [dropPre_append_some]
  dsimp only
  rw [hsp', if_neg hspc, List.drop_left, hbody]
  dsimp only
  rw [hwe]

/-- On a line that is a standalone Roman-Pasal marker, the pattern
matches at its start and consumes exactly the line: both when the line is
last (end of string) and when the following line holds a non-whitespace
character. -/
theorem tryRomanPasal_marker (L g : List Char) (hm : lineMarkerRoman L = some g) :
    tryRomanPasal L = some (L.length, g)
    ∧ ∀ N t', '\n' ∉ N → (∃ c, c ∈ N ∧ isPySpace c = false) →
        tryRomanPasal (L ++ '\n' :: (N ++ t')) = some (L.length, g) := by
  obtain ⟨sp, tail2, hL, hspne, hspall, hgne, hgall, htall⟩ := lineMarkerRoman_decomp L g hm
  have hspne' : sp.isEmpty = false := List.isEmpty_eq_false.mpr hspne
  have hgne' : g.isEmpty = false := List.isEmpty_eq_false.mpr hgne
  have hlen : ("Pasal".data).length + sp.length + g.length + tail2.length = L.length := by
    rw [hL]
    simp only [List.length_append]
  constructor
  · have hro : (tail2 ++ ([] : List Char)).takeWhile isRomanChar = [] := by
      rw [List.append_nil]
      exact takeWhile_roman_ws htall
    have hwe : tailWsEnd (tail2 ++ ([] : List Char)) = some tail2.length := by
      rw [List.append_nil]
      unfold tailWsEnd
      dsimp only
      rw [takeWhile_all_eq tail2 htall]
      simp
    have h1 := tryRomanPasal_core sp g tail2 [] tail2.length hspne' hspall hgne' hgall hro hwe
    rw [show "Pasal".data ++ (sp ++ (g ++ (tail2 ++ ([] : List Char)))) = L by
      rw [hL]; simp [List.append_assoc]] at h1
    rw [hlen] at h1
    exact h1
  · intro N t' hnlN hex
    obtain ⟨c, hcN, hcw⟩ := hex
    have hro : (tail2 ++ ('\n' :: (N ++ t'))).takeWhile isRomanChar = [] := by
      refine takeWhile_nil_append (takeWhile_roman_ws htall) ?_
      rw [List.takeWhile_cons, newline_not_roman]
      simp
    have hnatall : ¬ N.all isPySpace = true := by
      intro hall
      rw [List.all_eq_true] at hall
      rw [hall c hcN] at hcw
      exact absurd hcw (by simp)
    have hwN : (N ++ t').takeWhile isPySpace = N.takeWhile isPySpace := by
      refine takeWhile_append_stop N t' c hcN ?_
      rw [hcw]
      exact Bool.false_ne_true
    have hnlw2 : '\n' ∉ N.takeWhile isPySpace := fun hm2 => hnlN (mem_of_mem_takeWhile hm2)
    have hws : (tail2 ++ ('\n' :: (N ++ t'))).takeWhile isPySpace
        = tail2 ++ '\n' :: N.takeWhile isPySpace := by
      rw [takeWhile_append_all tail2 _ htall, List.takeWhile_cons]
      rw [show isPySpace '\n' = true by decide, if_pos rfl, hwN]
    have hlt : (N.takeWhile isPySpace).length < N.length := takeWhile_lt_of_not_all N hnatall
    have hwe : tailWsEnd (tail2 ++ ('\n' :: (N ++ t'))) = some tail2.length := by
      unfold tailWsEnd
      dsimp only
      rw [hws]
      have hne : ((tail2 ++ ('\n' :: (N ++ t'))).length
          == (tail2 ++ '\n' :: N.takeWhile isPySpace).length) = false := by
        refine beq_eq_false_iff_ne.mpr ?_
        simp only [List.length_append, List.length_cons]
        omega
      have hcond : ¬ ((tail2 ++ ('\n' :: (N ++ t'))).length
          == (tail2 ++ '\n' :: N.takeWhile isPySpace).length) = true := by
        rw [hne]
        exact Bool.false_ne_true
      rw [if_neg hcond]
      exact lastNewlineIdx_append tail2 _ hnlw2
    have h1 := tryRomanPasal_core sp g tail2 ('\n' :: (N ++ t')) tail2.length
      hspne' hspall hgne' hgall hro hwe
    rw [show "Pasal".data ++ (sp ++ (g ++ (tail2 ++ ('\n' :: (N ++ t'))))) = L ++ '\n' :: (N ++ t') by
      rw [hL]; simp [List.append_assoc]] at h1
    rw [hlen] at h1
    exact h1

/-- On a line that is not a standalone Roman-Pasal marker, the pattern
does not match at the line start, whatever follows the line's newline
(or at end of string). -/
theorem tryRomanPasal_notmatch (L : List Char) (hm : lineMarkerRoman L = none)
    (hnl : '\n' ∉ L) (r : List Char) (hr : r = [] ∨ ∃ t, r = '\n' :: t) :
    tryRomanPasal (L ++ r) = none := by
  unfold lineMarkerRoman at hm
  cases hP : dropPre "Pasal".data L with
  | none =>
    unfold tryRomanPasal tryLineMarker
    rw [dropPre_none_append "Pasal".data L r (by decide) hP hr]
  | some r1 =>
    rw [hP] at hm
    dsimp only at hm
    have hL : L = "Pasal".data ++ r1 := dropPre_eq_some _ _ _ hP
    have hnlr1 : '\n' ∉ r1 := fun hmem => hnl (hL ▸ List.mem_append.mpr (Or.inr hmem))
    unfold tryRomanPasal tryLineMarker
    rw [show L ++ r = "Pasal".data ++ (r1 ++ r) by rw [hL]; simp [List.append_assoc]]
    rw [dropPre_append_some]
    dsimp only
    by_cases hspe : (r1.takeWhile isSepTab).isEmpty = true
    · have h1 : r1.takeWhile isSepTab = [] := List.isEmpty_iff.mp hspe
      have h2 : r.takeWhile isSepTab = [] := takeWhile_r_nil (by decide) r hr
      have h3 : (r1 ++ r).takeWhile isSepTab = [] := takeWhile_nil_append h1 h2
      rw [h3]
      rfl
    · rw [if_neg hspe] at hm
      have hsplen : (r1.takeWhile isSepTab).length ≤ r1.length :=
        ( List.takeWhile_prefix _).length_le
      have hsp' : (r1 ++ r).takeWhile isSepTab = r1.takeWhile isSepTab := by
        conv_lhs => rw [← takeWhile_append_drop2 isSepTab r1, List.append_assoc]
        rw [takeWhile_append_all _ _ List.all_takeWhile]
        rw [takeWhile_nil_append (takeWhile_drop_nil isSepTab r1)
          (takeWhile_r_nil (by decide) r hr)]
        rw [List.append_nil]
      rw [hsp', if_neg hspe]
      have hdr : (r1 ++ r).drop (r1.takeWhile isSepTab).length
          = r1.drop (r1.takeWhile isSepTab).length ++ r :=
        List.drop_append_of_le_length hsplen
      rw [hdr]
      by_cases hge : ((r1.drop (r1.takeWhile isSepTab).length).takeWhile isRomanChar).isEmpty = true
      · have h1 : (r1.drop (r1.takeWhile isSepTab).length).takeWhile isRomanChar = [] :=
          List.isEmpty_iff.mp hge
        have h2 : r.takeWhile isRomanChar = [] := takeWhile_r_nil (by decide) r hr
        have h3 : ((r1.drop (r1.takeWhile isSepTab).length) ++ r).takeWhile isRomanChar = [] :=
          takeWhile_nil_append h1 h2
        unfold bodyRoman
        dsimp only
        rw [h3]
        rfl
      · rw [if_neg hge] at hm
        have hta : ((r1.drop (r1.takeWhile isSepTab).length).drop
            ((r1.drop (r1.takeWhile isSepTab).length).takeWhile isRomanChar).length).all
              isPySpace = false := by
          by_cases h : ((r1.drop (r1.takeWhile isSepTab).length).drop
              ((r1.drop (r1.takeWhile isSepTab).length).takeWhile isRomanChar).length).all
                isPySpace = true
          · rw [if_pos h] at hm
            exact absurd hm (by simp)
          · exact Bool.eq_false_iff.mpr h
        have hglen : ((r1.drop (r1.takeWhile isSepTab).length).takeWhile isRomanChar).length
            ≤ (r1.drop (r1.takeWhile isSepTab).length).length :=
          ( List.takeWhile_prefix _).length_le
        have hg' : ((r1.drop (r1.takeWhile isSepTab).length) ++ r).takeWhile isRomanChar
            = (r1.drop (r1.takeWhile isSepTab).length).takeWhile isRomanChar := by
          conv_lhs => rw [← takeWhile_append_drop2 isRomanChar
            (r1.drop (r1.takeWhile isSepTab).length), List.append_assoc]
          rw [takeWhile_append_all _ _ List.all_takeWhile]
          rw [takeWhile_nil_append (takeWhile_drop_nil isRomanChar _)
            (takeWhile_r_nil (by decide) r hr)]
          rw [List.append_nil]
        have hbody : bodyRoman ((r1.drop (r1.takeWhile isSepTab).length) ++ r)
            = some ((r1.drop (r1.takeWhile isSepTab).length).takeWhile isRomanChar,
                (r1.drop (r1.takeWhile isSepTab).length).drop
                  ((r1.drop (r1.takeWhile isSepTab).length).takeWhile isRomanChar).length
                  ++ r) := by
          unfold bodyRoman
          dsimp only
          rw [hg', if_neg hge, List.drop_append_of_le_length hglen]
        rw [hbody]
        dsimp only
        obtain ⟨c, hc, hcw⟩ : ∃ c, c ∈ (r1.drop (r1.takeWhile isSepTab).length).drop
            ((r1.drop (r1.takeWhile isSepTab).length).takeWhile isRomanChar).length
            ∧ ¬ isPySpace c = true := by
          by_contra hcon
          push_neg at hcon
          have : ((r1.drop (r1.takeWhile isSepTab).length).drop
              ((r1.drop (r1.takeWhile isSepTab).length).takeWhile isRomanChar).length).all
                isPySpace = true :=
            List.all_eq_true.mpr (fun x hx => hcon x hx)
          rw [this] at hta
          exact absurd hta (by simp)
        have hws : (((r1.drop (r1.takeWhile isSepTab).length).drop
              ((r1.drop (r1.takeWhile isSepTab).length).takeWhile isRomanChar).length)
              ++ r).takeWhile isPySpace
            = ((r1.drop (r1.takeWhile isSepTab).length).drop
              ((r1.drop (r1.takeWhile isSepTab).length).takeWhile isRomanChar).length).takeWhile
                isPySpace :=
          takeWhile_append_stop _ _ c hc hcw
        have hlt : (((r1.drop (r1.takeWhile isSepTab).length).drop
              ((r1.drop (r1.takeWhile isSepTab).length).takeWhile isRomanChar).length).takeWhile
                isPySpace).length
            < ((r1.drop (r1.takeWhile isSepTab).length).drop
              ((r1.drop (r1.takeWhile isSepTab).length).takeWhile isRomanChar).length).length := by
          refine takeWhile_lt_of_not_all _ ?_
          rw [hta]
          exact Bool.false_ne_true
        unfold tailWsEnd
        dsimp only
        rw [hws]
        have hcond : ¬ ((((r1.drop (r1.takeWhile isSepTab).length).drop
              ((r1.drop (r1.takeWhile isSepTab).length).takeWhile isRomanChar).length) ++ r).length
            == (((r1.drop (r1.takeWhile isSepTab).length).drop
              ((r1.drop (r1.takeWhile isSepTab).length).takeWhile isRomanChar).length).takeWhile
                isPySpace).length) = true := by
          have hne : ((((r1.drop (r1.takeWhile isSepTab).length).drop
                ((r1.drop (r1.takeWhile isSepTab).length).takeWhile isRomanChar).length) ++ r).length
              == (((r1.drop (r1.takeWhile isSepTab).length).drop
                ((r1.drop (r1.takeWhile isSepTab).length).takeWhile isRomanChar).length).takeWhile
                  isPySpace).length) = false := by
            refine beq_eq_false_iff_ne.mpr ?_
            simp only [List.length_append]
            omega
          rw [hne]
          exact Bool.false_ne_true
        rw [if_neg hcond]
        have hnltw : '\n' ∉ ((r1.drop (r1.takeWhile isSepTab).length).drop
            ((r1.drop (r1.takeWhile isSepTab).length).takeWhile isRomanChar).length).takeWhile
              isPySpace := by
          intro hmem
          have h1 := mem_of_mem_takeWhile hmem
          have h2 := List.drop_subset _ _ h1
          have h3 := List.drop_subset _ _ h2
          exact hnlr1 h3
        unfold lastNewlineIdx
        have hnone : ((((r1.drop (r1.takeWhile isSepTab).length).drop
            ((r1.drop (r1.takeWhile isSepTab).length).takeWhile isRomanChar).length).takeWhile
              isPySpace).reverse).findIdx? (· == '\n') = none := by
          rw [List.findIdx?_eq_none_iff]
          intro x hx
          refine beq_eq_false_iff_ne.mpr ?_
          intro he
          subst he
          exact hnltw (List.mem_reverse.mp hx)
        rw [hnone]

theorem fixLine_marker (L g : List Char) (hm : lineMarkerRoman L = some g) :
    fixLine L = emitRoman L g := by
  unfold fixLine emitRoman
  rw [hm]

theorem fixLine_id (L : List Char) (hm : lineMarkerRoman L = none) :
    fixLine L = L := by
  unfold fixLine
  rw [hm]

theorem joinLines_cons_ex (N : List Char) (rest : List (List Char)) :
    ∃ t', joinLines (N :: rest) = N ++ t' := by
  cases rest with
  | nil => exact ⟨[], (List.append_nil N).symm⟩
  | cons M rest2 => exact ⟨'\n' :: joinLines (M :: rest2), rfl⟩

theorem lineMarkerRoman_head (L g : List Char) (hm : lineMarkerRoman L = some g) :
    ∃ cs, L = 'P' :: cs := by
  obtain ⟨sp, tail2, hL, _, _, _, _, _⟩ := lineMarkerRoman_decomp L g hm
  exact ⟨"asal".data ++ sp ++ g ++ tail2, by rw [hL]; simp [List.append_assoc]⟩

/-- The MULTILINE Roman-Pasal substitution acts line by line: on a list
of newline-free lines in which every marker line is followed by a line
holding a non-whitespace character, the scan maps `fixLine` over the
lines. -/
theorem lineSub_join (ls : List (List Char)) :
    ∀ extra : Nat, (∀ L ∈ ls, '\n' ∉ L) → markersFollowed ls = true →
      lineSubRun tryRomanPasal emitRoman ((joinLines ls).length + extra) true (joinLines ls)
        = joinLines (ls.map fixLine) := by
  induction ls with
  | nil =>
    intro extra _ _
    exact lineSubRun_nil _ _ _ _
  | cons L rest ih =>
    intro extra hnl hmf
    have hnlL : '\n' ∉ L := hnl L (List.mem_cons_self _ _)
    cases rest with
    | nil =>
      cases hm : lineMarkerRoman L with
      | some g =>
        obtain ⟨cs, hLc⟩ := lineMarkerRoman_head L g hm
        have hma := (tryRomanPasal_marker L g hm).1
        rw [show joinLines [L] = L from rfl, show joinLines ([L].map fixLine) = fixLine L from rfl]
        rw [hLc] at hma ⊢
        simp only [List.length_cons] at hma ⊢
        rw [show cs.length + 1 + extra = (cs.length + extra) + 1 by omega]
        rw [lineSubRun_succ_true, hma]
        dsimp only
        rw [List.take_succ_cons, List.take_length, List.drop_length]
        rw [lineSubRun_nil, List.append_nil]
        rw [← hLc, fixLine_marker L g hm]
      | none =>
        have hma := tryRomanPasal_notmatch L hm hnlL [] (Or.inl rfl)
        rw [List.append_nil] at hma
        rw [show joinLines [L] = L from rfl, show joinLines ([L].map fixLine) = fixLine L from rfl]
        rw [fixLine_id L hm]
        cases hLc : L with
        | nil => exact lineSubRun_nil _ _ _ _
        | cons c cs =>
          rw [hLc] at hma hnlL
          simp only [List.length_cons]
          rw [show cs.length + 1 + extra = (cs.length + extra) + 1 by omega]
          rw [lineSubRun_succ_true, hma]
          dsimp only
          have hc : (c == '\n') = false :=
            beq_eq_false_iff_ne.mpr (fun he => hnlL (he ▸ List.mem_cons_self c cs))
          rw [hc, passFalse_last _ _ cs _ (fun hm2 => hnlL (List.mem_cons_of_mem c hm2))]
    | cons N rest2 =>
      have hnlN : '\n' ∉ N := hnl N (List.mem_cons_of_mem L (List.mem_cons_self _ _))
      have hnltail : ∀ M ∈ N :: rest2, '\n' ∉ M := fun M hM => hnl M (List.mem_cons_of_mem L hM)
      have hmf2 : markersFollowed (N :: rest2) = true := by
        unfold markersFollowed at hmf
        simp only [Bool.and_eq_true] at hmf
        exact hmf.2
      have hJ : joinLines (L :: N :: rest2) = L ++ '\n' :: joinLines (N :: rest2) := rfl
      have hJm : joinLines ((L :: N :: rest2).map fixLine)
          = fixLine L ++ '\n' :: joinLines ((N :: rest2).map fixLine) := rfl
      rw [hJ, hJm]
      cases hm : lineMarkerRoman L with
      | some g =>
        have hany : N.any (fun c => !isPySpace c) = true := by
          unfold markersFollowed at hmf
          simp only [Bool.and_eq_true] at hmf
          have h1 := hmf.1
          rw [hm] at h1
          simpa using h1
        obtain ⟨c, hcN, hcb⟩ := List.any_eq_true.mp hany
        have hcw : isPySpace c = false := by
          cases h : isPySpace c
          · rfl
          · rw [h] at hcb
            exact absurd hcb (by simp)
        obtain ⟨t', ht'⟩ := joinLines_cons_ex N rest2
        have hma := (tryRomanPasal_marker L g hm).2 N t' hnlN ⟨c, hcN, hcw⟩
        obtain ⟨cs, hLc⟩ := lineMarkerRoman_head L g hm
        rw [ht']
        rw [hLc] at hma hnlL hm ⊢
        rw [show (('P' :: cs) ++ '\n' :: (N ++ t')).length + extra
            = (cs.length + 1 + ((N ++ t').length + (cs.length + extra) - cs.length)) + 1 by
          simp only [List.length_append, List.length_cons]
          omega]
        rw [show (N ++ t').length + (cs.length + extra) - cs.length
            = (N ++ t').length + extra by omega]
        rw [List.cons_append] at hma
        simp only [List.length_cons] at hma
        rw [List.cons_append, lineSubRun_succ_true, hma]
        dsimp only
        rw [List.take_succ_cons, List.take_left, List.drop_left]
        rw [getLast_beq_newline hnlL]
        rw [show cs.length + 1 + ((N ++ t').length + extra)
            = ([] : List Char).length + 1 + ((N ++ t').length + (cs.length + extra)) by
          simp only [List.length_nil]
          omega]
        rw [show ('\n' :: (N ++ t') : List Char) = [] ++ '\n' :: (N ++ t') from rfl]
        rw [passFalse _ _ [] (N ++ t') ((N ++ t').length + (cs.length + extra)) (by simp)]
        rw [List.nil_append, ← ht']
        rw [ih (cs.length + extra) hnltail hmf2]
        rw [← fixLine_marker ('P' :: cs) g hm]
      | none =>
        have hma := tryRomanPasal_notmatch L hm hnlL ('\n' :: joinLines (N :: rest2))
          (Or.inr ⟨joinLines (N :: rest2), rfl⟩)
        rw [fixLine_id L hm]
        cases hLc : L with
        | nil =>
          rw [hLc] at hma
          rw [List.nil_append] at hma
          rw [List.nil_append]
          rw [show (('\n' :: joinLines (N :: rest2)) : List Char).length + extra
              = ((joinLines (N :: rest2)).length + extra) + 1 by
            simp only [List.length_cons]
            omega]
          rw [lineSubRun_succ_true, hma]
          dsimp only
          rw [show ('\n' == '\n') = true by decide]
          rw [ih extra hnltail hmf2]
          rfl
        | cons c cs =>
          rw [hLc] at hma hnlL
          rw [show ((c :: cs) ++ '\n' :: joinLines (N :: rest2)).length + extra
              = (cs.length + 1 + ((joinLines (N :: rest2)).length + extra)) + 1 by
            simp only [List.length_append, List.length_cons]
            omega]
          rw [List.cons_append] at hma
          rw [List.cons_append, lineSubRun_succ_true, hma]
          dsimp only
          have hc : (c == '\n') = false :=
            beq_eq_false_iff_ne.mpr (fun he => hnlL (he ▸ List.mem_cons_self c cs))
          rw [hc]
          rw [passFalse _ _ cs (joinLines (N :: rest2))
            ((joinLines (N :: rest2)).length + extra)
            (fun hm2 => hnlL (List.mem_cons_of_mem c hm2))]
          rw [ih extra hnltail hmf2]
          rw [List.cons_append]

/-- **C3 counterexample.** On `"Halo dunia."` — a markerless, non-empty
body — `parse_structure` returns one node of type `preamble`, not a
`content` node: the `content` branch requires `not markers and not
preamble`, and a non-empty markerless body always produces a truthy
preamble. -/
theorem parse_structure_counterexample :
    penjelasanSplit (fixRomanPasalsL "Halo dunia.".data) = none
    ∧ findMarkers (fixRomanPasalsL "Halo dunia.".data) = []
    ∧ pyStripL "Halo dunia.".data ≠ []
    ∧ (parseStructure "Halo dunia.").map PNode.ntype = ["preamble"]
    ∧ ["preamble"] ≠ (["content"] : List String) :=
  ⟨by decide, by decide, by decide, by decide, by decide⟩

theorem collapseFrom_ntype (o : OpenN) (rest : List OpenN) :
    (collapseFrom o rest).ntype = o.ntype := by
  cases rest <;> rfl

theorem collapseOpt_types (stack : List OpenN)
    (hst : ∀ o ∈ stack, o.ntype ∈ markerKinds) :
    ∀ n ∈ collapseOpt stack, PNode.ntype n ∈ markerKinds := by
  cases stack with
  | nil => intro n hn; simp [collapseOpt] at hn
  | cons o rest =>
    intro n hn
    simp only [collapseOpt, List.mem_singleton] at hn
    subst hn
    rw [collapseFrom_ntype]
    exact hst o (List.mem_cons_self _ _)

theorem addToInnermost_types (n : PNode) :
    ∀ (stack : List OpenN), (∀ o ∈ stack, o.ntype ∈ markerKinds) →
      ∀ o ∈ addToInnermost stack n, o.ntype ∈ markerKinds := by
  intro stack
  induction stack with
  | nil => intro _ o ho; simp [addToInnermost] at ho
  | cons a rest ih =>
    intro hst o ho
    cases rest with
    | nil =>
      simp only [addToInnermost, List.mem_singleton] at ho
      subst ho
      exact hst a (List.mem_cons_self _ _)
    | cons b rest2 =>
      rw [show addToInnermost (a :: b :: rest2) n
          = a :: addToInnermost (b :: rest2) n from rfl] at ho
      rcases List.mem_cons.mp ho with h | h
      · subst h
        exact hst o (List.mem_cons_self _ _)
      · exact ih (fun o' ho' => hst o' (List.mem_cons_of_mem a ho')) o h

theorem markerStep_appends (body : List Char) (ns : Nat) (m : Marker) (st : LoopSt)
    (hst : ∀ o ∈ st.stack, o.ntype ∈ markerKinds) :
    ∃ added, (markerStep body ns m st).roots = st.roots ++ added
      ∧ (∀ n ∈ added, PNode.ntype n ∈ markerKinds)
      ∧ (∀ o ∈ (markerStep body ns m st).stack, o.ntype ∈ markerKinds) := by
  unfold markerStep
  dsimp only
  by_cases h1 : (m.mtype == "bab") = true
  · rw [if_pos h1]
    refine ⟨collapseOpt st.stack, rfl, collapseOpt_types st.stack hst, ?_⟩
    intro o ho
    simp only [List.mem_singleton] at ho
    subst ho
    simp [markerKinds]
  · rw [if_neg h1]
    by_cases h2 : (m.mtype == "aturan") = true
    · rw [if_pos h2]
      refine ⟨collapseOpt st.stack, rfl, collapseOpt_types st.stack hst, ?_⟩
      intro o ho
      simp only [List.mem_singleton] at ho
      subst ho
      simp [markerKinds]
    · rw [if_neg h2]
      by_cases h3 : (m.mtype == "bagian") = true
      · rw [if_pos h3]
        cases hs : st.stack with
        | nil =>
          dsimp only
          refine ⟨[], (List.append_nil _).symm, by intro n hn; simp at hn, ?_⟩
          intro o ho
          simp only [List.mem_singleton] at ho
          subst ho
          simp [markerKinds]
        | cons b rest =>
          dsimp only
          by_cases hb : (b.ntype == "bab" || b.ntype == "aturan") = true
          · rw [if_pos hb]
            refine ⟨[], (List.append_nil _).symm, by intro n hn; simp at hn, ?_⟩
            intro o ho
            rcases List.mem_cons.mp ho with h | h
            · subst h
              exact hst b (hs ▸ List.mem_cons_self _ _)
            · simp only [List.mem_singleton] at h
              subst h
              simp [markerKinds]
          · rw [if_neg hb]
            refine ⟨[collapseFrom b rest], rfl, ?_, ?_⟩
            · intro n hn
              simp only [List.mem_singleton] at hn
              subst hn
              rw [collapseFrom_ntype]
              exact hst b (hs ▸ List.mem_cons_self _ _)
            · intro o ho
              simp only [List.mem_singleton] at ho
              subst ho
              simp [markerKinds]
      · rw [if_neg h3]
        by_cases h4 : (m.mtype == "paragraf") = true
        · rw [if_pos h4]
          refine ⟨[], (List.append_nil _).symm, by intro n hn; simp at hn, ?_⟩
          intro o ho
          rcases List.mem_append.mp ho with h | h
          · exact hst o h
          · simp only [List.mem_singleton] at h
            subst h
            simp [markerKinds]
        · rw [if_neg h4]
          by_cases h5 : (m.mtype == "pasal") = true
          · rw [if_pos h5]
            cases hs : st.stack with
            | nil =>
              dsimp only
              refine ⟨[PNode.mk "pasal" m.number ""
                ⟨pyStripL ((body.take ns).drop m.mend)⟩
                (ayatNodes (pyStripL ((body.take ns).drop m.mend))) st.so], rfl, ?_, ?_⟩
              · intro n hn
                simp only [List.mem_singleton] at hn
                subst hn
                simp [markerKinds, PNode.ntype]
              · intro o ho
                simp at ho
            | cons o2 rest =>
              dsimp only
              refine ⟨[], (List.append_nil _).symm, by intro n hn; simp at hn, ?_⟩
              intro o ho
              refine addToInnermost_types _ (o2 :: rest) ?_ o ho
              intro o' ho'
              exact hst o' (hs ▸ ho')
          · rw [if_neg h5]
            exact ⟨[], (List.append_nil _).symm, by intro n hn; simp at hn, hst⟩

theorem markerLoop_cons (body : List Char) (m : Marker) (rest : List Marker) (st : LoopSt) :
    ∃ k, markerLoop body (m :: rest) st = markerLoop body rest (markerStep body k m st) := by
  cases rest with
  | nil => exact ⟨body.length, rfl⟩
  | cons m2 rest2 => exact ⟨m2.mstart, rfl⟩

theorem markerLoop_appends (body : List Char) (ms : List Marker) :
    ∀ st : LoopSt, (∀ o ∈ st.stack, o.ntype ∈ markerKinds) →
      ∃ added, (markerLoop body ms st).roots = st.roots ++ added
        ∧ (∀ n ∈ added, PNode.ntype n ∈ markerKinds)
        ∧ (∀ o ∈ (markerLoop body ms st).stack, o.ntype ∈ markerKinds) := by
  induction ms with
  | nil =>
    intro st hst
    exact ⟨[], (List.append_nil _).symm, by intro n hn; simp at hn, hst⟩
  | cons m rest ih =>
    intro st hst
    obtain ⟨k, hk⟩ := markerLoop_cons body m rest st
    rw [hk]
    obtain ⟨a1, he1, ht1, hs1⟩ := markerStep_appends body k m st hst
    obtain ⟨a2, he2, ht2, hs2⟩ := ih _ hs1
    refine ⟨a1 ++ a2, ?_, ?_, hs2⟩
    · rw [he2, he1, List.append_assoc]
    · intro n hn
      rcases List.mem_append.mp hn with h | h
      · exact ht1 n h
      · exact ht2 n h

theorem kinds_ne_preamble {s : String} (h : s ∈ markerKinds) : s ≠ "preamble" := by
  simp only [markerKinds, List.mem_cons, List.not_mem_nil, or_false] at h
  rcases h with h | h | h | h | h <;> subst h <;> decide

/-- **C3 (amended).** `parse_structure` on the body part: (1) a
markerless body that is non-empty after stripping becomes exactly one
node — of type `preamble`, not `content`; (2) the `content` node is
produced only when the body is markerless and strips to empty (and then
holds the empty string); (3) in every case with markers, if the text
before the first marker strips non-empty it becomes the single
`preamble` node at the head, and no other node of the body part has type
`preamble`; (4) when no PENJELASAN split is found, the result is exactly
the body part. -/
theorem parse_structure_spec :
    (∀ b : List Char, findMarkers b = [] → pyStripL b ≠ [] →
        bodyNodesAll b = [PNode.mk "preamble" "" "" ⟨pyStripL b⟩ [] 0])
    ∧ (∀ b : List Char, findMarkers b = [] → pyStripL b = [] →
        bodyNodesAll b = [PNode.mk "content" "" "" ⟨pyStripL b⟩ [] 0])
    ∧ (∀ (b : List Char) (m : Marker) (ms : List Marker), findMarkers b = m :: ms →
        pyStripL (b.take m.mstart) ≠ [] →
        ∃ rest, bodyNodesAll b
            = PNode.mk "preamble" "" "" ⟨pyStripL (b.take m.mstart)⟩ [] 0 :: rest
          ∧ ∀ n ∈ rest, PNode.ntype n ≠ "preamble")
    ∧ (∀ t : String, penjelasanSplit (fixRomanPasalsL t.data) = none →
        parseStructure t = bodyNodesAll (fixRomanPasalsL t.data)) := by
  refine ⟨?_, ?_, ?_, ?_⟩
  · intro b hm hne
    unfold bodyNodesAll
    rw [hm]
    dsimp only
    rw [List.take_length]
    have hne' : (pyStripL b).isEmpty = false := List.isEmpty_eq_false.mpr hne
    rw [hne']
    simp only [Bool.false_eq_true, if_false, Bool.and_false]
    rfl
  · intro b hm he
    unfold bodyNodesAll
    rw [hm]
    dsimp only
    rw [List.take_length]
    have he' : (pyStripL b).isEmpty = true := by rw [he]; rfl
    rw [he']
    simp only [if_true]
    rfl
  · intro b m ms hm hne
    unfold bodyNodesAll
    rw [hm]
    dsimp only
    have hne' : (pyStripL (b.take m.mstart)).isEmpty = false := List.isEmpty_eq_false.mpr hne
    rw [hne']
    simp only [Bool.false_eq_true, if_false, Bool.false_and, List.length_cons,
      List.length_nil]
    obtain ⟨added, he1, ht1, hs1⟩ := markerLoop_appends b (m :: ms)
      ⟨[PNode.mk "preamble" "" "" ⟨pyStripL (b.take m.mstart)⟩ [] 0], [], 0 + 1⟩
      (by intro o ho; simp at ho)
    rw [he1]
    refine ⟨added ++ collapseOpt (markerLoop b (m :: ms)
      ⟨[PNode.mk "preamble" "" "" ⟨pyStripL (b.take m.mstart)⟩ [] 0], [], 0 + 1⟩).stack,
      ?_, ?_⟩
    · rw [List.append_assoc, List.singleton_append]
      simp only [Bool.and_false, Bool.false_eq_true, if_false]
      rw [List.cons_append]
    · intro n hn
      rcases List.mem_append.mp hn with h | h
      · exact kinds_ne_preamble (ht1 n h)
      · exact kinds_ne_preamble (collapseOpt_types _ hs1 n h)
  · intro t h
    unfold parseStructure
    dsimp only
    rw [h]

/-- Witness: the amended theorem applied to the markerless body
`Halo dunia.`. -/
theorem parse_structure_spec_witness :
    findMarkers "Halo dunia.".data = []
    ∧ pyStripL "Halo dunia.".data ≠ []
    ∧ bodyNodesAll "Halo dunia.".data
        = [PNode.mk "preamble" "" "" ⟨pyStripL "Halo dunia.".data⟩ [] 0] :=
  ⟨by decide, by decide, parse_structure_spec.1 _ (by decide) (by decide)⟩

set_option maxRecDepth 16384 in
/-- **C4 counterexample.** A job whose PDF is classified `image_only`
with extractable text of ≥ 100 characters is processed and marked
`loaded`, not `needs_ocr`: the processor never reads the quality. -/
theorem process_quality_counterexample :
    processJobStatus
      ⟨"UNDANG-UNDANG REPUBLIK INDONESIA TENTANG CONTOH\nPasal 1\nKetentuan umum dalam undang-undang ini mengatur hal-hal pokok yang bersifat umum.",
       "image_only", some 7, 3, 5⟩ = "loaded"
    ∧ ("loaded" : String) ≠ "needs_ocr" :=
  ⟨by decide, by decide⟩

/-- **C4 (amended).** The worker's processor ignores the PDF quality
classification entirely: `_extract_and_load`'s outcome is invariant
under any change of the classifier's verdict (`image_only` included),
and the job's final status is always `loaded` (success) or `failed`
(exception) — never `needs_ocr`. -/
theorem process_quality_spec :
    (∀ (env : PdfEnv) (q : String),
        extractAndLoad { env with quality := q } = extractAndLoad env)
    ∧ (∀ env : PdfEnv, processJobStatus env = "loaded" ∨ processJobStatus env = "failed")
    ∧ (∀ env : PdfEnv, processJobStatus env ≠ "needs_ocr") := by
  refine ⟨?_, ?_, ?_⟩
  · intro env q
    rfl
  · intro env
    unfold processJobStatus
    cases hE : extractAndLoad env with
    | error e => exact Or.inr rfl
    | ok v => exact Or.inl rfl
  · intro env
    unfold processJobStatus
    cases hE : extractAndLoad env with
    | error e =>
      show ("failed" : String) ≠ "needs_ocr"
      decide
    | ok v =>
      show ("loaded" : String) ≠ "needs_ocr"
      decide

/-- **C5 (amended).** The Roman-Pasal pre-pass: (1) an amendment law
(`_AMENDMENT_RE` matches in the first 2000 characters) is returned
unchanged; (2) when the first `ATURAN PERALIHAN`/`ATURAN TAMBAHAN` marker
starts at position `p`, the substitution is applied to the text before
`p` only and everything from `p` on is unchanged; (3) on the part the
substitution covers, the rewrite is line-by-line (`fixLine`): a
standalone marker line `Pasal<seps>R<line whitespace>` with `R` a Roman
numeral known to the map (I..XV) becomes exactly `Pasal <arabic>` (the
separators are normalised to one space and trailing line whitespace is
dropped), an unknown-Roman marker line and every other line are
unchanged — provided no marker line is followed by a whitespace-only
line (otherwise the greedy `\s*$` absorbs the following blank lines, cf.
the counterexample). -/
theorem fix_roman_pasals_spec :
    (∀ t : List Char, isAmendmentLaw t = true → fixRomanPasalsL t = t)
    ∧ (∀ (t : List Char) (p : Nat), isAmendmentLaw t = false → findAturanStart t = some p →
        fixRomanPasalsL t = romanPasalSub (t.take p) ++ t.drop p)
    ∧ (∀ ls : List (List Char), (∀ L ∈ ls, '\n' ∉ L) → markersFollowed ls = true →
        isAmendmentLaw (joinLines ls) = false → findAturanStart (joinLines ls) = none →
        fixRomanPasalsL (joinLines ls) = joinLines (ls.map fixLine)) := by
  refine ⟨?_, ?_, ?_⟩
  · intro t h
    unfold fixRomanPasalsL
    rw [h]
    rfl
  · intro t p ham hat
    unfold fixRomanPasalsL
    rw [ham, hat]
    rfl
  · intro ls hnl hmf ham hat
    unfold fixRomanPasalsL
    rw [ham, hat]
    dsimp only
    unfold romanPasalSub runLineSub
    have h := lineSub_join ls 0 hnl hmf
    rw [Nat.add_zero] at h
    exact h

/-- Witness: the claim theorem applied to the two-line text
`Pasal IX\nIsi pasal.` rewrites the marker line to `Pasal 9` and leaves
the body line unchanged. -/
theorem fix_roman_pasals_spec_witness :
    (∀ L ∈ ["Pasal IX".data, "Isi pasal.".data], '\n' ∉ L)
    ∧ markersFollowed ["Pasal IX".data, "Isi pasal.".data] = true
    ∧ isAmendmentLaw (joinLines ["Pasal IX".data, "Isi pasal.".data]) = false
    ∧ findAturanStart (joinLines ["Pasal IX".data, "Isi pasal.".data]) = none
    ∧ fixRomanPasalsL (joinLines ["Pasal IX".data, "Isi pasal.".data])
        = joinLines (["Pasal IX".data, "Isi pasal.".data].map fixLine)
    ∧ joinLines (["Pasal IX".data, "Isi pasal.".data].map fixLine)
        = "Pasal 9\nIsi pasal.".data :=
  ⟨by decide, by decide, by decide, by decide,
   fix_roman_pasals_spec.2.2 ["Pasal IX".data, "Isi pasal.".data]
     (by decide) (by decide) (by decide) (by decide),
   by decide⟩

end Pasal
